import Mathlib

/-!
Verification of the easypath library (src/easypath/main.py) against its
natural-language specification.

The library is a flat collection of filesystem utilities.  We give a shallow
embedding: the filesystem is an association list from absolute paths
(component lists) to nodes (file with text content, or directory), with
leftmost binding winning on lookup; each operation from the source becomes a
pure Lean function threading the filesystem state explicitly.  The platform
model is POSIX (os.linesep is a single newline), matching the Linux target.
Fallible Python code (uncaught exceptions) is modelled with Except.  The
interactive confirmation prompt of remove_folder is modelled by passing the
text the user would type as an explicit argument.  The byte-encoding layer of
text I/O is modelled as exact: file nodes store the decoded text, which is
faithful whenever the chosen encoding can represent the text, the premise of
every claim that mentions encodings.
-/

namespace EasyPath

/-! ### Pure path model (pathlib.PurePosixPath)

pathlib parses a path string into (is-absolute, components), dropping empty
and "." components; rendering joins components with "/" and prints "." for a
relative empty path. -/

/-- Split a character list into the chunks between '/' separators. -/
def splitSlash (acc : List Char) : List Char → List String
  | [] => [String.mk acc.reverse]
  | c :: rest =>
      if c = '/' then String.mk acc.reverse :: splitSlash [] rest
      else splitSlash (c :: acc) rest

/-- A parsed POSIX path: whether it is absolute, plus its components. -/
structure PurePath where
  absolute : Bool
  comps : List String
deriving DecidableEq, Repr

/-- Parse a path string the way pathlib.PurePosixPath does: absolute iff it
starts with '/', components are the non-empty, non-"." chunks between
slashes. -/
def parsePath (s : String) : PurePath :=
  { absolute := s.data.head? = some '/',
    comps := (splitSlash [] s.data).filter (fun c => c != "" && c != ".") }

/-- Render a parsed path back to a string (str of a PurePosixPath): "/" plus
the joined components when absolute, "." for an empty relative path. -/
def PurePath.render (p : PurePath) : String :=
  if p.absolute then "/" ++ String.intercalate "/" p.comps
  else if p.comps = [] then "." else String.intercalate "/" p.comps

/-- The pathlib '/' operator: an absolute right operand replaces the left
operand; otherwise components concatenate. -/
def PurePath.join (a b : PurePath) : PurePath :=
  if b.absolute then b else ⟨a.absolute, a.comps ++ b.comps⟩

/-- Model of easypath.path_join: "" when called with no parts, otherwise the
left-to-right fold of the pathlib '/' operator over all parts, rendered. -/
def path_join : List String → String
  | [] => ""
  | p :: rest => (rest.foldl (fun acc q => acc.join (parsePath q)) (parsePath p)).render

/-- Model of easypath.relative_path (PurePosixPath.relative_to): succeeds iff
the base's components are a prefix of the target's and both are alike
absolute or relative; the error models pathlib's ValueError.  The source
defaults the base to the current working directory; here it is explicit. -/
def relative_path (path start : String) : Except String String :=
  let p := parsePath path
  let base := parsePath start
  if base.absolute = p.absolute && base.comps.isPrefixOf p.comps then
    Except.ok (PurePath.render ⟨false, p.comps.drop base.comps.length⟩)
  else
    Except.error "ValueError: target is not in the subpath of the base"

/-- C10: path_join called with zero arguments returns the empty string (it is
total, so it never raises), and on any non-empty argument list it returns the
left-to-right pathlib join of all the parts. -/
theorem path_join_empty_and_fold :
    path_join [] = "" ∧
    ∀ (p : String) (rest : List String),
      path_join (p :: rest) =
        ((rest.map parsePath).foldl PurePath.join (parsePath p)).render := by
  refine ⟨rfl, fun p rest => ?_⟩
  simp [path_join, List.foldl_map]

/-- C9 (amended): relative_path succeeds exactly when the base's parsed
components are a prefix of the target's and both paths are alike absolute or
relative — i.e. when the target is the base itself or a descendant of it; on
success it returns the rendered remainder ("." when the paths are equal), and
otherwise it fails with pathlib's ValueError (the library defines no
PathError). -/
theorem relative_path_ok_iff_prefix (path start : String) :
    ((∃ r, relative_path path start = Except.ok r) ↔
      ((parsePath start).absolute = (parsePath path).absolute ∧
        (parsePath start).comps <+: (parsePath path).comps)) ∧
    (∀ r, relative_path path start = Except.ok r →
      r = PurePath.render
        ⟨false, (parsePath path).comps.drop (parsePath start).comps.length⟩) := by
  constructor
  · constructor
    · intro ⟨r, hr⟩
      by_cases h : (parsePath start).absolute = (parsePath path).absolute ∧
          (parsePath start).comps.isPrefixOf (parsePath path).comps
      · exact ⟨h.1, List.isPrefixOf_iff_prefix.mp h.2⟩
      · simp only [relative_path] at hr
        rw [if_neg] at hr
        · exact absurd hr (by simp)
        · simpa [Bool.and_eq_true, decide_eq_true_iff] using h
    · intro ⟨h1, h2⟩
      have hok : relative_path path start = Except.ok (PurePath.render
          ⟨false, (parsePath path).comps.drop (parsePath start).comps.length⟩) := by
        simp only [relative_path]
        rw [if_pos]
        simp [h1, List.isPrefixOf_iff_prefix, h2]
      exact ⟨_, hok⟩
  · intro r hr
    simp only [relative_path] at hr
    split at hr
    · exact (Except.ok.injEq _ _ ▸ hr).symm ▸ rfl
    · exact absurd hr (by simp)

/-- C9 counterexample: the target "a" is not a descendant of the base "a"
(descendant is strict), yet relative_path succeeds and returns "." instead of
failing — refuting the claim that it fails whenever the target is not a
descendant of the base. -/
theorem relative_path_equal_succeeds :
    relative_path "a" "a" = Except.ok "." := by rfl

/-! ### Filesystem model

An absolute path is its list of components.  The filesystem is an association
list from paths to nodes; the leftmost binding wins on lookup, so prepending
entries models creation/overwrite and filtering models deletion.  A file node
stores the file's decoded text content. -/

/-- A path on disk, as its list of components. -/
abbrev AbsPath := List String

/-- A filesystem node: a regular file with its stored text, or a directory. -/
inductive Node where
  | file (data : String)
  | dir
deriving DecidableEq, Repr

/-- The filesystem state. -/
abbrev FS := List (AbsPath × Node)

/-- Look a path up in the filesystem (leftmost binding wins). -/
def lookupFS : FS → AbsPath → Option Node
  | [], _ => none
  | (q, n) :: rest, p => if q = p then some n else lookupFS rest p

/-- Model of Path.exists(): the path has a binding. -/
def pathExists (fs : FS) (p : AbsPath) : Bool := (lookupFS fs p).isSome

/-- Model of Path.is_dir(): the path is bound to a directory. -/
def pathIsDir (fs : FS) (p : AbsPath) : Bool := lookupFS fs p == some Node.dir

/-- Model of Path.is_file(): the path is bound to a regular file. -/
def pathIsFile (fs : FS) (p : AbsPath) : Bool :=
  match lookupFS fs p with
  | some (Node.file _) => true
  | _ => false

/-- Model of easypath.file_exists: path.exists() and path.is_file(). -/
def file_exists (fs : FS) (p : AbsPath) : Bool := pathExists fs p && pathIsFile fs p

/-- Model of easypath.folder_exists: path.exists() and path.is_dir(). -/
def folder_exists (fs : FS) (p : AbsPath) : Bool := pathExists fs p && pathIsDir fs p

/-- The final component of a path (Path.name; "" for the empty path). -/
def lastName (p : AbsPath) : String := p.getLast?.getD ""

/-- The entries that are direct children of a directory (Path.iterdir()):
bindings whose path extends the root by exactly one component.  Enumeration
order is the binding order, matching the unspecified filesystem order. -/
def childrenOf (fs : FS) (root : AbsPath) : FS :=
  fs.filter (fun e => e.1.length = root.length + 1 && root.isPrefixOf e.1)

/-- The entries that are strict descendants of a directory
(Path.rglob of a star pattern): bindings whose path strictly extends the
root. -/
def descendantsOf (fs : FS) (root : AbsPath) : FS :=
  fs.filter (fun e => root.isPrefixOf e.1 && decide (root.length < e.1.length))

/-- Whether a node is a regular file. -/
def isFileNode : Node → Bool
  | Node.file _ => true
  | Node.dir => false

/-- Whether a node is a directory. -/
def isDirNode : Node → Bool
  | Node.file _ => false
  | Node.dir => true

/-- fnmatch-style matching of a glob pattern against one name: star matches
any run of characters, question mark one character, other characters match
themselves (character classes, which the library never passes, are not
modelled). -/
def fnmatchChars : List Char → List Char → Bool
  | [], [] => true
  | '*' :: ps, [] => fnmatchChars ps []
  | '*' :: ps, c :: cs => fnmatchChars ps (c :: cs) || fnmatchChars ('*' :: ps) cs
  | '?' :: ps, _ :: cs => fnmatchChars ps cs
  | p :: ps, c :: cs => p == c && fnmatchChars ps cs
  | _ :: _, [] => false
  | [], _ :: _ => false
termination_by ps cs => (ps.length, cs.length)

/-- Match a glob pattern against a name. -/
def fnmatch (pattern name : String) : Bool := fnmatchChars pattern.data name.data

/-- Model of Path.rglob(pattern) for a single-component pattern, which is the
only shape the library passes: the strict descendants whose final name
matches the pattern.  pathlib yields nothing when the root is missing or not
a directory, without raising. -/
def rglobEntries (fs : FS) (root : AbsPath) (pattern : String) : FS :=
  if pathExists fs root && pathIsDir fs root then
    (descendantsOf fs root).filter (fun e => fnmatch pattern (lastName e.1))
  else []

/-- Model of Path.glob(pattern) for a single-component pattern: the direct
children whose name matches; nothing when the root is missing or not a
directory. -/
def globEntries (fs : FS) (root : AbsPath) (pattern : String) : FS :=
  if pathExists fs root && pathIsDir fs root then
    (childrenOf fs root).filter (fun e => fnmatch pattern (lastName e.1))
  else []

/-! ### Enumeration operations -/

/-- Model of easypath.list_folders: names of the child (or descendant)
directories, or [] with a printed message when the root is missing or not a
directory. -/
def list_folders (fs : FS) (root : AbsPath) (recursive : Bool) : List String :=
  if pathExists fs root && pathIsDir fs root then
    ((if recursive then descendantsOf fs root else childrenOf fs root).filter
      (fun e => isDirNode e.2)).map (fun e => lastName e.1)
  else []

/-- Model of easypath.list_files: names of the child (or descendant) files,
or [] with a printed message when the root is missing or not a directory. -/
def list_files (fs : FS) (root : AbsPath) (recursive : Bool) : List String :=
  if !pathExists fs root || !pathIsDir fs root then []
  else
    ((if recursive then descendantsOf fs root else childrenOf fs root).filter
      (fun e => isFileNode e.2)).map (fun e => lastName e.1)

/-- Model of easypath.list_paths: names of children (or descendants), files
and directories each included when the corresponding flag is set; [] when the
root is missing or not a directory.  The source appends a file name and then
a directory name per entry, which for real nodes is one name each. -/
def list_paths (fs : FS) (root : AbsPath) (recursive include_files include_dirs : Bool) :
    List String :=
  if !pathExists fs root || !pathIsDir fs root then []
  else
    ((if recursive then descendantsOf fs root else childrenOf fs root).filter
      (fun e => (isFileNode e.2 && include_files) || (isDirNode e.2 && include_dirs))).map
      (fun e => lastName e.1)

/-- Model of easypath.glob_paths: names of children matching the pattern; []
when the root is missing or not a directory. -/
def glob_paths (fs : FS) (root : AbsPath) (pattern : String) : List String :=
  if !pathExists fs root || !pathIsDir fs root then []
  else (globEntries fs root pattern).map (fun e => lastName e.1)

/-- Model of easypath.rglob_paths: names of descendants matching the pattern;
[] when the root is missing or not a directory. -/
def rglob_paths (fs : FS) (root : AbsPath) (pattern : String) : List String :=
  if !pathExists fs root || !pathIsDir fs root then []
  else (rglobEntries fs root pattern).map (fun e => lastName e.1)

/-- Model of easypath.find_files_by_extension: rglob of "*" plus the
dot-normalized extension, keeping files only.  The source has no root check
of its own; it relies on rglob yielding nothing for a bad root. -/
def find_files_by_extension (fs : FS) (root : AbsPath) (extension : String) : List String :=
  let ext := if extension.data.head? = some '.' then extension else "." ++ extension
  ((rglobEntries fs root ("*" ++ ext)).filter (fun e => isFileNode e.2)).map
    (fun e => lastName e.1)

/-- Model of easypath.find_files_by_name: rglob of the file name, keeping
files only; no root check of its own, like find_files_by_extension. -/
def find_files_by_name (fs : FS) (root : AbsPath) (filename : String) : List String :=
  ((rglobEntries fs root filename).filter (fun e => isFileNode e.2)).map
    (fun e => lastName e.1)

/-- Model of easypath.count_files: number of child (or descendant) files; 0
for a missing or non-directory root. -/
def count_files (fs : FS) (root : AbsPath) (recursive : Bool) : Nat :=
  if !pathExists fs root || !pathIsDir fs root then 0
  else ((if recursive then descendantsOf fs root else childrenOf fs root).filter
    (fun e => isFileNode e.2)).length

/-- Model of easypath.count_folders: number of child (or descendant)
directories; 0 for a missing or non-directory root. -/
def count_folders (fs : FS) (root : AbsPath) (recursive : Bool) : Nat :=
  if !pathExists fs root || !pathIsDir fs root then 0
  else ((if recursive then descendantsOf fs root else childrenOf fs root).filter
    (fun e => isDirNode e.2)).length

/-! ### Mutating operations

Each mutating operation returns the new filesystem and the decisive printed
message (the source interpolates the concerned path into the message; the
constant prefix is kept here).  Operations that can raise an uncaught Python
exception return Except, with the error holding the exception name. -/

/-- Python str.strip: drop leading and trailing whitespace. -/
def pyStrip (s : String) : String :=
  String.mk (((s.data.dropWhile Char.isWhitespace).reverse.dropWhile
    Char.isWhitespace).reverse)

/-- Python str.lower (over the ASCII range the prompt compares against). -/
def pyLower (s : String) : String := String.mk (s.data.map Char.toLower)

/-- Delete a directory and everything below it: the net effect of
remove_folder's recursive walk (unlink every descendant file, recurse into
descendant directories, finally rmdir the root). -/
def removeSubtree (fs : FS) (root : AbsPath) : FS :=
  fs.filter (fun e => !root.isPrefixOf e.1)

/-- Model of easypath.remove_folder.  The interactive input() read by the
confirmation gate is passed in as userInput; the gate prompts with the
recursive file and folder counts and proceeds only on a stripped, lowered
answer of "y". -/
def remove_folder (fs : FS) (path : AbsPath)
    (confirm force dry_run : Bool) (userInput : String) : FS × String :=
  if !pathExists fs path || !pathIsDir fs path then
    (fs, "Folder does not exist or is not a directory")
  else if confirm && !force && pyLower (pyStrip userInput) != "y" then
    (fs, "Operation cancelled.")
  else if dry_run then (fs, "Folder would be removed")
  else (removeSubtree fs path, "Folder removed")

/-- The bindings under src, rebased under dst: binding src ++ rel becomes
dst ++ rel with the same node. -/
def rebaseEntries : FS → AbsPath → AbsPath → FS
  | [], _, _ => []
  | (k, n) :: rest, src, dst =>
      if src.isPrefixOf k then
        (dst ++ k.drop src.length, n) :: rebaseEntries rest src dst
      else rebaseEntries rest src dst

/-- Whether one source binding makes shutil.copytree(src, dst,
dirs_exist_ok=True) collect an error for its final shutil.Error: a source
directory colliding with a destination file (the recursive copy's
os.makedirs raises FileExistsError), a source file whose copy2 is
redirected into a colliding destination directory and lands on a directory
again (IsADirectoryError), or a source file copied onto itself
(SameFileError, which happens exactly when dst equals src here). -/
def copytreeBad (fs : FS) (src dst : AbsPath) (e : AbsPath × Node) : Bool :=
  src.isPrefixOf e.1 && decide (src.length < e.1.length) &&
  (match e.2 with
   | Node.dir => pathIsFile fs (dst ++ e.1.drop src.length)
   | Node.file _ =>
       (pathIsDir fs (dst ++ e.1.drop src.length) &&
         pathIsDir fs (dst ++ e.1.drop src.length ++ [lastName e.1])) ||
       decide (dst ++ e.1.drop src.length = e.1))

/-- The bindings shutil.copytree adds when it collects no error: every
source binding lands at the same relative place under dst, except that a
source file whose target is an existing destination directory is copied by
copy2 into that directory under its own name. -/
def copytreeEntries : FS → FS → AbsPath → AbsPath → FS
  | [], _, _, _ => []
  | (k, n) :: rest, fs0, src, dst =>
      if src.isPrefixOf k then
        (match n with
         | Node.dir => (dst ++ k.drop src.length, Node.dir)
         | Node.file d =>
             if pathIsDir fs0 (dst ++ k.drop src.length) then
               (dst ++ k.drop src.length ++ [lastName k], Node.file d)
             else (dst ++ k.drop src.length, Node.file d)) ::
          copytreeEntries rest fs0 src dst
      else copytreeEntries rest fs0 src dst

/-- Model of shutil.copytree(src, dst, dirs_exist_ok): FileExistsError when
dst exists and dirs_exist_ok is not set, or when dst is an existing regular
file (the outer os.makedirs fails even with exist_ok); shutil.Error when
some source binding collides by type with a destination binding, per
copytreeBad (the partially copied state that exception leaves behind is not
tracked, as no claim concerns the filesystem after a raise); otherwise dst
gains a copy of every binding under src per copytreeEntries, overwriting
colliding files and keeping destination bindings that do not collide (it
never clears dst). -/
def copytree (fs : FS) (src dst : AbsPath) (dirs_exist_ok : Bool) : Except String FS :=
  if pathExists fs dst && !dirs_exist_ok then Except.error "FileExistsError"
  else if pathIsFile fs dst then Except.error "FileExistsError"
  else if fs.any (copytreeBad fs src dst) then Except.error "shutil.Error"
  else Except.ok (copytreeEntries fs fs src dst ++ fs)

/-- Model of easypath.copy_folder: refuse when the source is missing or not a
directory, refuse when the destination exists without overwrite, otherwise
shutil.copytree with dirs_exist_ok set to the overwrite flag. -/
def copy_folder (fs : FS) (src dst : AbsPath) (overwrite : Bool) :
    Except String (FS × String) :=
  if !pathExists fs src || !pathIsDir fs src then
    Except.ok (fs, "Source folder does not exist or is not a directory")
  else if pathExists fs dst && !overwrite then
    Except.ok (fs, "Destination folder already exists")
  else (copytree fs src dst overwrite).map (fun fs1 => (fs1, "Folder copied"))

/-- Rename every binding under src to sit under dst (os.rename of a tree). -/
def renameTree : FS → AbsPath → AbsPath → FS
  | [], _, _ => []
  | (k, n) :: rest, src, dst =>
      if src.isPrefixOf k then
        (dst ++ k.drop src.length, n) :: renameTree rest src dst
      else (k, n) :: renameTree rest src dst

/-- Model of shutil.move for a directory source: when dst is an existing
directory the source is moved inside it under its own name, otherwise the
tree is renamed to dst (within the modelled single volume the rename always
completes directly). -/
def shutilMove (fs : FS) (src dst : AbsPath) : FS :=
  if pathIsDir fs dst then renameTree fs src (dst ++ [lastName src])
  else renameTree fs src dst

/-- Model of easypath.move_folder: refuse when the source is missing or not a
directory, refuse when the destination exists without overwrite; with
overwrite, an existing destination is first removed by remove_folder with
confirm off and force on (which refuses silently when dst is not a
directory, after which moving a directory onto the remaining regular file
raises NotADirectoryError from os.rename); then shutil.move. -/
def move_folder (fs : FS) (src dst : AbsPath) (overwrite : Bool) :
    Except String (FS × String) :=
  if !pathExists fs src || !pathIsDir fs src then
    Except.ok (fs, "Source folder does not exist or is not a directory")
  else if pathExists fs dst && !overwrite then
    Except.ok (fs, "Destination folder already exists")
  else
    let fs1 := if pathExists fs dst && overwrite then
      (remove_folder fs dst false true false "").1 else fs
    if pathIsFile fs1 dst then Except.error "NotADirectoryError"
    else Except.ok (shutilMove fs1 src dst, "Folder moved")

/-- Remove a single binding (Path.unlink of a file; the callers below only
reach it on an existing path): IsADirectoryError on a directory. -/
def unlinkPath (fs : FS) (p : AbsPath) : Except String FS :=
  if pathIsDir fs p then Except.error "IsADirectoryError"
  else Except.ok (fs.filter (fun e => e.1 != p))

/-- The text content of a file binding ("" when not a file, unreachable at
the call sites below). -/
def contentAt (fs : FS) (p : AbsPath) : String :=
  match lookupFS fs p with
  | some (Node.file data) => data
  | _ => ""

/-- Model of easypath.copy_file: refuse when the source is missing or not a
file, refuse when the destination exists without overwrite; with overwrite an
existing destination is first unlinked (raising IsADirectoryError when it is
a directory); then shutil.copy2 writes the destination file. -/
def copy_file (fs : FS) (src dst : AbsPath) (overwrite : Bool) :
    Except String (FS × String) :=
  if !pathExists fs src || !pathIsFile fs src then
    Except.ok (fs, "Source file does not exist or is not a file")
  else if pathExists fs dst && !overwrite then
    Except.ok (fs, "Destination file already exists")
  else
    let step : Except String FS :=
      if pathExists fs dst && overwrite then unlinkPath fs dst else Except.ok fs
    step.bind (fun fs1 =>
      if !pathExists fs1 src then Except.error "FileNotFoundError"
      else Except.ok ((dst, Node.file (contentAt fs1 src)) :: fs1, "File copied"))

/-- Model of easypath.move_file: like copy_file but the source binding is
renamed to the destination by shutil.move. -/
def move_file (fs : FS) (src dst : AbsPath) (overwrite : Bool) :
    Except String (FS × String) :=
  if !pathExists fs src || !pathIsFile fs src then
    Except.ok (fs, "Source file does not exist or is not a file")
  else if pathExists fs dst && !overwrite then
    Except.ok (fs, "Destination file already exists")
  else
    let step : Except String FS :=
      if pathExists fs dst && overwrite then unlinkPath fs dst else Except.ok fs
    step.bind (fun fs1 =>
      if !pathExists fs1 src then Except.error "FileNotFoundError"
      else Except.ok
        ((dst, Node.file (contentAt fs1 src)) :: fs1.filter (fun e => e.1 != src),
          "File moved"))

/-! ### Lookup lemmas -/

theorem lookupFS_append (a b : FS) (p : AbsPath) :
    lookupFS (a ++ b) p = (lookupFS a p).orElse (fun _ => lookupFS b p) := by
  induction a with
  | nil => simp [lookupFS, Option.orElse]
  | cons e rest ih =>
    obtain ⟨k, n⟩ := e
    by_cases h : k = p
    · simp [lookupFS, h, Option.orElse]
    · simp [lookupFS, h, ih]

theorem lookupFS_filter_key (Q : AbsPath → Bool) (p : AbsPath) (fs : FS) :
    lookupFS (fs.filter (fun e => Q e.1)) p =
      if Q p then lookupFS fs p else none := by
  induction fs with
  | nil => simp [lookupFS]
  | cons e rest ih =>
    obtain ⟨k, n⟩ := e
    by_cases hq : Q k
    · by_cases hk : k = p
      · subst hk
        simp [List.filter_cons, hq, lookupFS]
      · simp [List.filter_cons, hq, lookupFS, hk, ih]
    · by_cases hk : k = p
      · subst hk
        simp [List.filter_cons, hq, lookupFS, ih]
      · simp [List.filter_cons, hq, lookupFS, hk, ih]

theorem lookupFS_eq_none_of_all_ne (fs : FS) (p : AbsPath)
    (h : ∀ e ∈ fs, e.1 ≠ p) : lookupFS fs p = none := by
  induction fs with
  | nil => rfl
  | cons e rest ih =>
    obtain ⟨k, n⟩ := e
    have hk : k ≠ p := h (k, n) (List.mem_cons_self _ _)
    simp only [lookupFS, if_neg hk]
    exact ih (fun e he => h e (List.mem_cons_of_mem _ he))

theorem pathExists_of_isDir {fs : FS} {p : AbsPath} (h : pathIsDir fs p = true) :
    pathExists fs p = true := by
  simp only [pathIsDir, beq_iff_eq] at h
  simp [pathExists, h]

theorem pathExists_of_isFile {fs : FS} {p : AbsPath} (h : pathIsFile fs p = true) :
    pathExists fs p = true := by
  simp only [pathIsFile] at h
  simp only [pathExists]
  cases hl : lookupFS fs p with
  | none => rw [hl] at h; simp at h
  | some n => simp

theorem isDir_not_isFile {fs : FS} {p : AbsPath} (h : pathIsDir fs p = true) :
    pathIsFile fs p = false := by
  simp only [pathIsDir, beq_iff_eq] at h
  simp [pathIsFile, h]

theorem isFile_not_isDir {fs : FS} {p : AbsPath} (h : pathIsFile fs p = true) :
    pathIsDir fs p = false := by
  simp only [pathIsFile] at h
  simp only [pathIsDir, beq_eq_false_iff_ne]
  cases hl : lookupFS fs p with
  | none => rw [hl] at h; simp at h
  | some n =>
    rw [hl] at h
    cases n with
    | file d => simp
    | dir => simp at h

/-! ### Theorems for existence checks and enumeration (C4, C5) -/

/-- C4: for a path with no binding, file_exists and folder_exists both return
false; and a path bound to the wrong type (a directory queried by
file_exists, a regular file queried by folder_exists) also reports false. -/
theorem exists_checks_existence_and_type (fs : FS) (p : AbsPath) :
    (lookupFS fs p = none →
      file_exists fs p = false ∧ folder_exists fs p = false) ∧
    (pathIsDir fs p = true → file_exists fs p = false) ∧
    (pathIsFile fs p = true → folder_exists fs p = false) := by
  refine ⟨fun hn => ?_, fun hd => ?_, fun hf => ?_⟩
  · simp [file_exists, folder_exists, pathExists, hn]
  · simp [file_exists, isDir_not_isFile hd]
  · simp [folder_exists, isFile_not_isDir hf]

/-- Witness for C4 on a concrete filesystem: a missing path, a directory
queried as a file, and a file queried as a folder. -/
theorem exists_checks_existence_and_type_witness :
    (lookupFS [(["d"], Node.dir), (["f"], Node.file "x")] ["gone"] = none ∧
      file_exists [(["d"], Node.dir), (["f"], Node.file "x")] ["gone"] = false ∧
      folder_exists [(["d"], Node.dir), (["f"], Node.file "x")] ["gone"] = false) ∧
    (file_exists [(["d"], Node.dir), (["f"], Node.file "x")] ["d"] = false ∧
      folder_exists [(["d"], Node.dir), (["f"], Node.file "x")] ["f"] = false) := by
  have h := exists_checks_existence_and_type [(["d"], Node.dir), (["f"], Node.file "x")]
  exact ⟨⟨by decide, (h ["gone"]).1 (by decide)⟩,
    (h ["d"]).2.1 (by decide), (h ["f"]).2.2 (by decide)⟩

/-- C5: every enumeration function returns the empty list when the root is
missing or not a directory; each is a total function, so this outcome is
non-fatal and no exception is raised.  list_folders, list_files, list_paths,
glob_paths and rglob_paths guard the root themselves; find_files_by_extension
and find_files_by_name inherit the behavior from rglob, which yields nothing
for a bad root. -/
theorem enumeration_empty_on_bad_root (fs : FS) (root : AbsPath)
    (pattern ext name : String) (recursive include_files include_dirs : Bool)
    (hbad : (pathExists fs root && pathIsDir fs root) = false) :
    list_folders fs root recursive = [] ∧
    list_files fs root recursive = [] ∧
    list_paths fs root recursive include_files include_dirs = [] ∧
    glob_paths fs root pattern = [] ∧
    rglob_paths fs root pattern = [] ∧
    find_files_by_extension fs root ext = [] ∧
    find_files_by_name fs root name = [] := by
  have hor : (!pathExists fs root || !pathIsDir fs root) = true := by
    cases hE : pathExists fs root <;> cases hD : pathIsDir fs root <;>
      simp_all
  have hrg : ∀ pat, rglobEntries fs root pat = [] := by
    intro pat
    simp [rglobEntries, hbad]
  refine ⟨?_, ?_, ?_, ?_, ?_, ?_, ?_⟩
  · simp [list_folders, hbad]
  · simp only [list_files, hor, if_pos]
  · simp only [list_paths, hor, if_pos]
  · simp only [glob_paths, hor, if_pos]
  · simp only [rglob_paths, hor, if_pos]
  · simp [find_files_by_extension, hrg]
  · simp [find_files_by_name, hrg]

/-- Witness for C5: on a filesystem where "root" is a regular file (present
but the wrong type), all seven enumeration functions return []. -/
theorem enumeration_empty_on_bad_root_witness :
    ((pathExists [(["root"], Node.file "x")] ["root"] &&
        pathIsDir [(["root"], Node.file "x")] ["root"]) = false) ∧
    (list_folders [(["root"], Node.file "x")] ["root"] true = [] ∧
      list_files [(["root"], Node.file "x")] ["root"] false = [] ∧
      list_paths [(["root"], Node.file "x")] ["root"] true true true = [] ∧
      glob_paths [(["root"], Node.file "x")] ["root"] "*" = [] ∧
      rglob_paths [(["root"], Node.file "x")] ["root"] "*" = [] ∧
      find_files_by_extension [(["root"], Node.file "x")] ["root"] "txt" = [] ∧
      find_files_by_name [(["root"], Node.file "x")] ["root"] "a.txt" = []) :=
  ⟨by decide,
    enumeration_empty_on_bad_root [(["root"], Node.file "x")] ["root"]
      "*" "txt" "a.txt" true true true (by decide)⟩

/-! ### Theorems for remove_folder and copy_folder refusal (C2, C3) -/

/-- C2: on an existing non-empty directory, remove_folder with the default
confirmation on and no force override deletes nothing when the interactive
confirmation is declined (any answer whose stripped, lowered form is not
"y"): the filesystem — the folder and all its contents — is returned exactly
as it was, with the cancellation message. -/
theorem remove_folder_declined_no_mutation (fs : FS) (path : AbsPath)
    (dry_run : Bool) (userInput : String)
    (hdir : pathIsDir fs path = true)
    (hnonempty : childrenOf fs path ≠ [])
    (hdecline : pyLower (pyStrip userInput) ≠ "y") :
    remove_folder fs path true false dry_run userInput =
      (fs, "Operation cancelled.") := by
  have hex := pathExists_of_isDir hdir
  have hguard : (!pathExists fs path || !pathIsDir fs path) = false := by
    simp [hex, hdir]
  simp only [remove_folder, hguard, Bool.false_eq_true, if_false]
  rw [if_pos]
  simp [bne_iff_ne, hdecline]

/-- Witness for C2: declining with " N " on a directory holding one file
leaves the filesystem untouched. -/
theorem remove_folder_declined_no_mutation_witness :
    (pathIsDir [(["d"], Node.dir), (["d", "f"], Node.file "x")] ["d"] = true ∧
      childrenOf [(["d"], Node.dir), (["d", "f"], Node.file "x")] ["d"] ≠ [] ∧
      pyLower (pyStrip " N ") ≠ "y") ∧
    remove_folder [(["d"], Node.dir), (["d", "f"], Node.file "x")] ["d"]
        true false false " N " =
      ([(["d"], Node.dir), (["d", "f"], Node.file "x")], "Operation cancelled.") :=
  ⟨⟨by decide, by decide, by decide⟩,
    remove_folder_declined_no_mutation _ _ false " N "
      (by decide) (by decide) (by decide)⟩

/-- C3: when the destination already exists and overwrite is not requested,
copy_folder (on an existing source directory) returns the filesystem
unchanged together with the conflict message, as a normal return rather than
an exception. -/
theorem copy_folder_existing_dst_no_mutation (fs : FS) (src dst : AbsPath)
    (hsrc : pathIsDir fs src = true)
    (hdst : pathExists fs dst = true) :
    copy_folder fs src dst false =
      Except.ok (fs, "Destination folder already exists") := by
  have hex := pathExists_of_isDir hsrc
  have hguard : (!pathExists fs src || !pathIsDir fs src) = false := by
    simp [hex, hsrc]
  simp [copy_folder, hguard, hdst]

/-- Witness for C3 on a concrete filesystem with an existing destination. -/
theorem copy_folder_existing_dst_no_mutation_witness :
    (pathIsDir [(["s"], Node.dir), (["t"], Node.dir)] ["s"] = true ∧
      pathExists [(["s"], Node.dir), (["t"], Node.dir)] ["t"] = true) ∧
    copy_folder [(["s"], Node.dir), (["t"], Node.dir)] ["s"] ["t"] false =
      Except.ok ([(["s"], Node.dir), (["t"], Node.dir)],
        "Destination folder already exists") :=
  ⟨⟨by decide, by decide⟩,
    copy_folder_existing_dst_no_mutation _ _ _ (by decide) (by decide)⟩

/-! ### Lemmas for the copy/move overwrite behavior (C1) -/

theorem lookupFS_rebase (src dst rel : AbsPath) :
    ∀ fs : FS,
      lookupFS (rebaseEntries fs src dst) (dst ++ rel) = lookupFS fs (src ++ rel)
  | [] => rfl
  | (k, n) :: rest => by
    have hrest := lookupFS_rebase src dst rel rest
    by_cases hp : src.isPrefixOf k
    · obtain ⟨t, ht⟩ := List.isPrefixOf_iff_prefix.mp hp
      subst ht
      simp only [rebaseEntries, hp, if_true, lookupFS, List.drop_left]
      by_cases hteq : t = rel
      · subst hteq; simp
      · rw [if_neg (fun hc => hteq (List.append_cancel_left hc)),
          if_neg (fun hc => hteq (List.append_cancel_left hc))]
        exact hrest
    · have hnp : ¬ (src <+: k) := fun h => hp (List.isPrefixOf_iff_prefix.mpr h)
      rw [Bool.not_eq_true] at hp
      simp only [rebaseEntries, hp, Bool.false_eq_true, if_false, lookupFS]
      rw [if_neg (fun hc : k = src ++ rel => hnp (hc ▸ ⟨rel, rfl⟩))]
      exact hrest

theorem removeSubtree_clean (fs : FS) (root : AbsPath) :
    ∀ e ∈ removeSubtree fs root, ¬ (root <+: e.1) := by
  intro e he hpre
  have h := (List.mem_filter.mp he).2
  rw [Bool.not_eq_eq_eq_not, Bool.not_true] at h
  exact absurd (List.isPrefixOf_iff_prefix.mpr hpre) (by simp [h])

theorem lookupFS_removeSubtree (fs : FS) (root p : AbsPath) :
    lookupFS (removeSubtree fs root) p =
      if root.isPrefixOf p then none else lookupFS fs p := by
  have h := lookupFS_filter_key (fun q => !root.isPrefixOf q) p fs
  rw [removeSubtree, h]
  by_cases hp : root.isPrefixOf p <;> simp [hp]

theorem lookupFS_renameTree_dst (src dst rel : AbsPath) :
    ∀ fs : FS, (∀ e ∈ fs, ¬ (dst <+: e.1)) →
      lookupFS (renameTree fs src dst) (dst ++ rel) = lookupFS fs (src ++ rel)
  | [] => fun _ => rfl
  | (k, n) :: rest => by
    intro hclean
    have hk : ¬ (dst <+: k) := hclean (k, n) (List.mem_cons_self _ _)
    have hrest := lookupFS_renameTree_dst src dst rel rest
      (fun e he => hclean e (List.mem_cons_of_mem _ he))
    by_cases hp : src.isPrefixOf k
    · obtain ⟨t, ht⟩ := List.isPrefixOf_iff_prefix.mp hp
      subst ht
      simp only [renameTree, hp, if_true, lookupFS, List.drop_left]
      by_cases hteq : t = rel
      · subst hteq; simp
      · rw [if_neg (fun hc => hteq (List.append_cancel_left hc)),
          if_neg (fun hc => hteq (List.append_cancel_left hc))]
        exact hrest
    · have hnp : ¬ (src <+: k) := fun h => hp (List.isPrefixOf_iff_prefix.mpr h)
      rw [Bool.not_eq_true] at hp
      simp only [renameTree, hp, Bool.false_eq_true, if_false, lookupFS]
      rw [if_neg (fun hc : k = dst ++ rel => hk (hc ▸ ⟨rel, rfl⟩)),
        if_neg (fun hc : k = src ++ rel => hnp (hc ▸ ⟨rel, rfl⟩))]
      exact hrest

theorem lookupFS_renameTree_src_none (src dst rel : AbsPath)
    (h1 : ¬ (src <+: dst)) (h2 : ¬ (dst <+: src)) :
    ∀ fs : FS, lookupFS (renameTree fs src dst) (src ++ rel) = none
  | [] => rfl
  | (k, n) :: rest => by
    have hrest := lookupFS_renameTree_src_none src dst rel h1 h2 rest
    by_cases hp : src.isPrefixOf k
    · simp only [renameTree, hp, if_true, lookupFS]
      rw [if_neg, hrest]
      intro hc
      rcases List.prefix_or_prefix_of_prefix (⟨_, hc⟩ : dst <+: src ++ rel)
        (⟨rel, rfl⟩ : src <+: src ++ rel) with h | h
      · exact h2 h
      · exact h1 h
    · have hnp : ¬ (src <+: k) := fun h => hp (List.isPrefixOf_iff_prefix.mpr h)
      rw [Bool.not_eq_true] at hp
      simp only [renameTree, hp, Bool.false_eq_true, if_false, lookupFS]
      rw [if_neg (fun hc : k = src ++ rel => hnp (hc ▸ ⟨rel, rfl⟩))]
      exact hrest

theorem not_prefix_of_append (src dst rel : AbsPath)
    (h1 : ¬ (src <+: dst)) (h2 : ¬ (dst <+: src)) : ¬ (dst <+: src ++ rel) := by
  intro hc
  rcases List.prefix_or_prefix_of_prefix hc (⟨rel, rfl⟩ : src <+: src ++ rel) with h | h
  · exact h2 h
  · exact h1 h

theorem pathIsFile_lookup {fs : FS} {p : AbsPath} (h : pathIsFile fs p = true) :
    ∃ d, lookupFS fs p = some (Node.file d) := by
  simp only [pathIsFile] at h
  cases hl : lookupFS fs p with
  | none => rw [hl] at h; simp at h
  | some n =>
    cases n with
    | file d => exact ⟨d, rfl⟩
    | dir => rw [hl] at h; simp at h

theorem copytreeEntries_eq_rebase (fs0 : FS) (src dst : AbsPath) :
    ∀ fs : FS,
      (∀ e ∈ fs, src.isPrefixOf e.1 = true → isFileNode e.2 = true →
        pathIsDir fs0 (dst ++ e.1.drop src.length) = false) →
      copytreeEntries fs fs0 src dst = rebaseEntries fs src dst
  | [] => fun _ => rfl
  | (k, n) :: rest => by
    intro h
    have hrest := copytreeEntries_eq_rebase fs0 src dst rest
      (fun e he => h e (List.mem_cons_of_mem _ he))
    by_cases hp : src.isPrefixOf k
    · cases n with
      | dir =>
        rw [copytreeEntries, if_pos hp, rebaseEntries, if_pos hp, hrest]
      | file d =>
        have hv := h (k, Node.file d) (List.mem_cons_self _ _) hp rfl
        rw [copytreeEntries, if_pos hp, rebaseEntries, if_pos hp, hrest, hv]
        simp
    · rw [Bool.not_eq_true] at hp
      simp only [copytreeEntries, hp, Bool.false_eq_true, if_false, rebaseEntries]
      exact hrest

theorem copytreeBad_none (fs : FS) (src dst : AbsPath)
    (h1 : ¬ (src <+: dst))
    (hdirs : ∀ e ∈ fs, src.isPrefixOf e.1 = true → isDirNode e.2 = true →
      pathIsFile fs (dst ++ e.1.drop src.length) = false)
    (hfiles : ∀ e ∈ fs, src.isPrefixOf e.1 = true → isFileNode e.2 = true →
      pathIsDir fs (dst ++ e.1.drop src.length) = false) :
    fs.any (copytreeBad fs src dst) = false := by
  rw [List.any_eq_false]
  intro e he
  rw [Bool.not_eq_true]
  obtain ⟨k, n⟩ := e
  by_cases hp : src.isPrefixOf k
  · cases n with
    | dir =>
      have hv := hdirs (k, Node.dir) he hp rfl
      rw [copytreeBad, hv]
      simp
    | file d =>
      have hfd := hfiles (k, Node.file d) he hp rfl
      have hne : ¬ (dst ++ k.drop src.length = k) := by
        obtain ⟨t, rfl⟩ := List.isPrefixOf_iff_prefix.mp hp
        rw [List.drop_left]
        intro hc
        apply h1
        rw [List.append_cancel_right hc]
      rw [copytreeBad]
      simp [hfd, hne]
  · rw [Bool.not_eq_true] at hp
    rw [copytreeBad, hp]
    simp

/-- C1 (amended): with an existing destination, all four operations refuse
and mutate nothing when the overwrite flag is off; with the overwrite flag
on, move_folder first clears the destination (recursively, with no
confirmation prompt) and then moves, so the destination subtree is exactly
the moved source with no remnants and the source is gone; copy_file and
move_file first delete the destination file and then copy/move the source
content; copy_folder however does NOT clear the destination: it merges into
it (shutil.copytree with dirs_exist_ok).  For disjoint trees whose
colliding entries agree in type, the merge overwrites collisions with the
source entry and keeps destination entries that have no counterpart in the
source; when a source folder collides with a destination file, copy_folder
instead raises shutil.Error (the recursive os.makedirs fails). -/
theorem copy_move_overwrite_spec (fs : FS) (src dst : AbsPath)
    (hdst : pathExists fs dst = true) :
    (pathIsDir fs src = true →
      copy_folder fs src dst false =
        Except.ok (fs, "Destination folder already exists")) ∧
    (pathIsDir fs src = true →
      move_folder fs src dst false =
        Except.ok (fs, "Destination folder already exists")) ∧
    (pathIsFile fs src = true →
      copy_file fs src dst false =
        Except.ok (fs, "Destination file already exists")) ∧
    (pathIsFile fs src = true →
      move_file fs src dst false =
        Except.ok (fs, "Destination file already exists")) ∧
    (pathIsDir fs src = true → pathIsDir fs dst = true →
      ¬ (src <+: dst) → ¬ (dst <+: src) →
      ∃ fs1, move_folder fs src dst true = Except.ok (fs1, "Folder moved") ∧
        (∀ rel, lookupFS fs1 (dst ++ rel) = lookupFS fs (src ++ rel)) ∧
        (∀ rel, lookupFS fs1 (src ++ rel) = none)) ∧
    (pathIsFile fs src = true → pathIsFile fs dst = true → src ≠ dst →
      ∃ fs1, copy_file fs src dst true = Except.ok (fs1, "File copied") ∧
        lookupFS fs1 dst = some (Node.file (contentAt fs src))) ∧
    (pathIsFile fs src = true → pathIsFile fs dst = true → src ≠ dst →
      ∃ fs1, move_file fs src dst true = Except.ok (fs1, "File moved") ∧
        lookupFS fs1 dst = some (Node.file (contentAt fs src)) ∧
        lookupFS fs1 src = none) ∧
    (pathIsDir fs src = true → pathIsDir fs dst = true →
      ¬ (src <+: dst) → ¬ (dst <+: src) →
      (∀ e ∈ fs, src.isPrefixOf e.1 = true → isDirNode e.2 = true →
        pathIsFile fs (dst ++ e.1.drop src.length) = false) →
      (∀ e ∈ fs, src.isPrefixOf e.1 = true → isFileNode e.2 = true →
        pathIsDir fs (dst ++ e.1.drop src.length) = false) →
      ∃ fs1, copy_folder fs src dst true = Except.ok (fs1, "Folder copied") ∧
        ∀ rel, lookupFS fs1 (dst ++ rel) =
          (lookupFS fs (src ++ rel)).orElse
            (fun _ => lookupFS fs (dst ++ rel))) ∧
    (pathIsDir fs src = true → pathIsDir fs dst = true →
      ¬ (src <+: dst) → ¬ (dst <+: src) →
      ∀ e ∈ fs, src.isPrefixOf e.1 = true → src.length < e.1.length →
        isDirNode e.2 = true →
        pathIsFile fs (dst ++ e.1.drop src.length) = true →
        copy_folder fs src dst true = Except.error "shutil.Error") := by
  refine ⟨?_, ?_, ?_, ?_, ?_, ?_, ?_, ?_, ?_⟩
  · intro hsd
    have hsx := pathExists_of_isDir hsd
    simp [copy_folder, hsx, hsd, hdst]
  · intro hsd
    have hsx := pathExists_of_isDir hsd
    simp [move_folder, hsx, hsd, hdst]
  · intro hsf
    have hsx := pathExists_of_isFile hsf
    simp [copy_file, hsx, hsf, hdst]
  · intro hsf
    have hsx := pathExists_of_isFile hsf
    simp [move_file, hsx, hsf, hdst]
  · intro hsd hdd h1 h2
    have hsx := pathExists_of_isDir hsd
    have hrm : remove_folder fs dst false true false "" =
        (removeSubtree fs dst, "Folder removed") := by
      simp [remove_folder, hdst, hdd]
    have hnone : lookupFS (removeSubtree fs dst) dst = none := by
      rw [lookupFS_removeSubtree, if_pos]
      exact List.isPrefixOf_iff_prefix.mpr (List.prefix_refl dst)
    have hfile1 : pathIsFile (removeSubtree fs dst) dst = false := by
      simp [pathIsFile, hnone]
    have hdir1 : pathIsDir (removeSubtree fs dst) dst = false := by
      simp [pathIsDir, hnone]
    refine ⟨renameTree (removeSubtree fs dst) src dst, ?_, ?_, ?_⟩
    · simp [move_folder, hsx, hsd, hdst, hrm, hfile1, shutilMove, hdir1]
    · intro rel
      rw [lookupFS_renameTree_dst src dst rel _ (removeSubtree_clean fs dst),
        lookupFS_removeSubtree,
        if_neg (fun hc => not_prefix_of_append src dst rel h1 h2
          (List.isPrefixOf_iff_prefix.mp hc))]
    · intro rel
      exact lookupFS_renameTree_src_none src dst rel h1 h2 _
  · intro hsf hdf hne
    have hsx := pathExists_of_isFile hsf
    have hdnd : pathIsDir fs dst = false := isFile_not_isDir hdf
    have hunl : unlinkPath fs dst =
        Except.ok (fs.filter (fun e => e.1 != dst)) := by
      simp only [unlinkPath, hdnd, Bool.false_eq_true, if_false]
    have hl1 : lookupFS (fs.filter (fun e => e.1 != dst)) src = lookupFS fs src := by
      rw [lookupFS_filter_key (fun q => q != dst) src fs, if_pos]
      simp [bne_iff_ne, hne]
    obtain ⟨d, hd⟩ := pathIsFile_lookup hsf
    have hex1 : pathExists (fs.filter (fun e => e.1 != dst)) src = true := by
      simp [pathExists, hl1, hd]
    have hcont : contentAt (fs.filter (fun e => e.1 != dst)) src =
        contentAt fs src := by
      simp [contentAt, hl1]
    refine ⟨(dst, Node.file (contentAt fs src)) :: fs.filter (fun e => e.1 != dst),
      ?_, ?_⟩
    · simp [copy_file, hsx, hsf, hdst, hunl, hex1, hcont, Except.bind]
    · simp [lookupFS]
  · intro hsf hdf hne
    have hsx := pathExists_of_isFile hsf
    have hdnd : pathIsDir fs dst = false := isFile_not_isDir hdf
    have hunl : unlinkPath fs dst =
        Except.ok (fs.filter (fun e => e.1 != dst)) := by
      simp only [unlinkPath, hdnd, Bool.false_eq_true, if_false]
    have hl1 : lookupFS (fs.filter (fun e => e.1 != dst)) src = lookupFS fs src := by
      rw [lookupFS_filter_key (fun q => q != dst) src fs, if_pos]
      simp [bne_iff_ne, hne]
    obtain ⟨d, hd⟩ := pathIsFile_lookup hsf
    have hex1 : pathExists (fs.filter (fun e => e.1 != dst)) src = true := by
      simp [pathExists, hl1, hd]
    have hcont : contentAt (fs.filter (fun e => e.1 != dst)) src =
        contentAt fs src := by
      simp [contentAt, hl1]
    refine ⟨(dst, Node.file (contentAt fs src)) ::
      (fs.filter (fun e => e.1 != dst)).filter (fun e => e.1 != src), ?_, ?_, ?_⟩
    · simp [move_file, hsx, hsf, hdst, hunl, hex1, hcont, Except.bind]
    · simp [lookupFS]
    · rw [lookupFS, if_neg (fun hc => hne hc.symm),
        lookupFS_filter_key (fun q => q != src) src _, if_neg]
      simp
  · intro hsd hdd h1 _h2 hdirs hfiles
    have hsx := pathExists_of_isDir hsd
    have hdnf : pathIsFile fs dst = false := isDir_not_isFile hdd
    have hbad := copytreeBad_none fs src dst h1 hdirs hfiles
    have hent := copytreeEntries_eq_rebase fs src dst fs hfiles
    have hct : copytree fs src dst true =
        Except.ok (rebaseEntries fs src dst ++ fs) := by
      simp only [copytree, Bool.not_true, Bool.and_false, Bool.false_eq_true,
        if_false, hdnf, hbad, hent]
    refine ⟨rebaseEntries fs src dst ++ fs, ?_, ?_⟩
    · simp [copy_folder, hsx, hsd, hdst, hct, Except.map]
    · intro rel
      rw [lookupFS_append, lookupFS_rebase]
  · intro hsd hdd _h1 _h2 e he hpre hstrict hdir hcol
    have hsx := pathExists_of_isDir hsd
    have hdnf : pathIsFile fs dst = false := isDir_not_isFile hdd
    have hbad : fs.any (copytreeBad fs src dst) = true := by
      rw [List.any_eq_true]
      refine ⟨e, he, ?_⟩
      obtain ⟨k, n⟩ := e
      cases n with
      | file d => simp [isDirNode] at hdir
      | dir =>
        rw [copytreeBad]
        simp [hpre, hstrict, hcol]
    have hct : copytree fs src dst true = Except.error "shutil.Error" := by
      simp only [copytree, Bool.not_true, Bool.and_false, Bool.false_eq_true,
        if_false, hdnf, hbad, if_true]
    simp [copy_folder, hsx, hsd, hdst, hct, Except.map]

/-- C1 counterexample: the claim says that with the overwrite flag set and an
existing destination, the destination is first cleared so that nothing of its
old contents remains.  For copy_folder this is false: the source tree s
(holding only s/a) is copied over the existing destination d with overwrite,
yet the old destination file d/b is still there afterwards, because
shutil.copytree with dirs_exist_ok merges instead of clearing. -/
theorem copy_folder_overwrite_remnant :
    (match copy_folder
        [(["s"], Node.dir), (["s", "a"], Node.file "new"),
          (["d"], Node.dir), (["d", "b"], Node.file "old")]
        ["s"] ["d"] true with
      | Except.ok (fs1, _) => lookupFS fs1 ["d", "b"]
      | Except.error _ => none) = some (Node.file "old") := by decide

/-- Witness for C1 on concrete filesystems: the refusal branch of copy_folder
without overwrite, the clearing move_folder with overwrite, the clearing
copy_file with overwrite, and the merging copy_folder with overwrite, each
obtained from the main theorem with its hypotheses discharged by
computation. -/
theorem copy_move_overwrite_spec_witness :
    (copy_folder [(["s"], Node.dir), (["d"], Node.dir), (["d", "b"], Node.file "old")]
        ["s"] ["d"] false =
      Except.ok ([(["s"], Node.dir), (["d"], Node.dir), (["d", "b"], Node.file "old")],
        "Destination folder already exists")) ∧
    (∃ fs1, move_folder
        [(["s"], Node.dir), (["d"], Node.dir), (["d", "b"], Node.file "old")]
        ["s"] ["d"] true = Except.ok (fs1, "Folder moved") ∧
      (∀ rel, lookupFS fs1 (["d"] ++ rel) = lookupFS
        [(["s"], Node.dir), (["d"], Node.dir), (["d", "b"], Node.file "old")]
        (["s"] ++ rel)) ∧
      (∀ rel, lookupFS fs1 (["s"] ++ rel) = none)) ∧
    (∃ fs1, copy_file [(["f1"], Node.file "A"), (["f2"], Node.file "B")]
        ["f1"] ["f2"] true = Except.ok (fs1, "File copied") ∧
      lookupFS fs1 ["f2"] = some (Node.file
        (contentAt [(["f1"], Node.file "A"), (["f2"], Node.file "B")] ["f1"]))) ∧
    (∃ fs1, copy_folder
        [(["s"], Node.dir), (["s", "a"], Node.file "new"),
          (["d"], Node.dir), (["d", "b"], Node.file "old")]
        ["s"] ["d"] true = Except.ok (fs1, "Folder copied") ∧
      ∀ rel, lookupFS fs1 (["d"] ++ rel) =
        (lookupFS [(["s"], Node.dir), (["s", "a"], Node.file "new"),
          (["d"], Node.dir), (["d", "b"], Node.file "old")] (["s"] ++ rel)).orElse
          (fun _ => lookupFS [(["s"], Node.dir), (["s", "a"], Node.file "new"),
            (["d"], Node.dir), (["d", "b"], Node.file "old")] (["d"] ++ rel))) :=
  ⟨(copy_move_overwrite_spec
      [(["s"], Node.dir), (["d"], Node.dir), (["d", "b"], Node.file "old")]
      ["s"] ["d"] (by decide)).1 (by decide),
    (copy_move_overwrite_spec
      [(["s"], Node.dir), (["d"], Node.dir), (["d", "b"], Node.file "old")]
      ["s"] ["d"] (by decide)).2.2.2.2.1 (by decide) (by decide)
      (by decide) (by decide),
    (copy_move_overwrite_spec [(["f1"], Node.file "A"), (["f2"], Node.file "B")]
      ["f1"] ["f2"] (by decide)).2.2.2.2.2.1 (by decide) (by decide) (by decide),
    (copy_move_overwrite_spec
      [(["s"], Node.dir), (["s", "a"], Node.file "new"),
        (["d"], Node.dir), (["d", "b"], Node.file "old")]
      ["s"] ["d"] (by decide)).2.2.2.2.2.2.2.1 (by decide) (by decide)
      (by decide) (by decide) (by decide) (by decide)⟩

/-! ### Text I/O (write_text / read_text)

Python text mode with the default newline=None translates every written
'\n' to os.linesep (itself '\n' on the modelled POSIX platform) and, on
read, translates '\r\n' and lone '\r' to '\n' (universal newlines). -/

/-- os.linesep on the modelled POSIX platform. -/
def osLinesep : List Char := ['\n']

/-- Newline translation applied by text-mode writing with newline=None:
every '\n' becomes os.linesep. -/
def writeNewlineTranslate : List Char → List Char
  | [] => []
  | c :: rest => (if c = '\n' then osLinesep else [c]) ++ writeNewlineTranslate rest

/-- Universal-newlines translation applied by text-mode reading with
newline=None: '\r\n' and lone '\r' both become '\n'. -/
def univNewlines : List Char → List Char
  | [] => []
  | '\r' :: '\n' :: rest => '\n' :: univNewlines rest
  | '\r' :: rest => '\n' :: univNewlines rest
  | c :: rest => c :: univNewlines rest

/-- The parent of a path (Path.parent). -/
def parentPath (p : AbsPath) : AbsPath := p.dropLast

/-- The chain of non-empty prefixes of a directory path: the directories
mkdir(parents=True) has to create, outermost first. -/
def ancestorChain (d : AbsPath) : List AbsPath :=
  (List.range d.length).map (fun i => d.take (i + 1))

/-- Model of easypath.ensure_parent_dir (Path.mkdir with parents and
exist_ok): creates every missing ancestor of the parent as a directory;
FileExistsError when one of them exists as a regular file. -/
def ensure_parent_dir (fs : FS) (p : AbsPath) : Except String FS :=
  if (ancestorChain (parentPath p)).all (fun q => !pathIsFile fs q) then
    Except.ok (((ancestorChain (parentPath p)).filter
      (fun q => !pathExists fs q)).map (fun q => (q, Node.dir)) ++ fs)
  else Except.error "FileExistsError"

/-- Model of easypath.write_text with the default parents=True: ensure the
parent directories, then store the newline-translated text at p
(IsADirectoryError when p is an existing directory). -/
def write_text (fs : FS) (p : AbsPath) (s : String) : Except String FS :=
  (ensure_parent_dir fs p).bind (fun fs1 =>
    if pathIsDir fs1 p then Except.error "IsADirectoryError"
    else Except.ok ((p, Node.file (String.mk (writeNewlineTranslate s.data))) :: fs1))

/-- Model of easypath.read_text: the stored text with universal-newlines
translation applied; errors mirror Python's on a missing path or a
directory. -/
def read_text (fs : FS) (p : AbsPath) : Except String String :=
  match lookupFS fs p with
  | some (Node.file data) => Except.ok (String.mk (univNewlines data.data))
  | some Node.dir => Except.error "IsADirectoryError"
  | none => Except.error "FileNotFoundError"

theorem writeNewlineTranslate_id (cs : List Char) : writeNewlineTranslate cs = cs := by
  induction cs with
  | nil => rfl
  | cons c rest ih =>
    by_cases h : c = '\n'
    · subst h; simp [writeNewlineTranslate, osLinesep, ih]
    · simp [writeNewlineTranslate, h, ih]

theorem univNewlines_id_of_no_cr : ∀ cs : List Char, '\r' ∉ cs → univNewlines cs = cs
  | [] => fun _ => rfl
  | c :: rest => by
    intro h
    have hc : c ≠ '\r' := fun hc => h (hc ▸ List.mem_cons_self _ _)
    have hrest : '\r' ∉ rest := fun hr => h (List.mem_cons_of_mem _ hr)
    have ih := univNewlines_id_of_no_cr rest hrest
    rw [univNewlines.eq_def]
    split
    · rename_i heq; simp at heq
    · rename_i heq
      rw [List.cons.injEq] at heq
      exact absurd heq.1 hc
    · rename_i _ heq
      rw [List.cons.injEq] at heq
      exact absurd heq.1 hc
    · rename_i heq
      rw [List.cons.injEq] at heq
      obtain ⟨h1, h2⟩ := heq
      subst h1; subst h2
      rw [ih]

theorem ancestorChain_keys_ne (p : AbsPath) :
    ∀ q ∈ ancestorChain (parentPath p), q ≠ p := by
  intro q hq
  simp only [ancestorChain, List.mem_map, List.mem_range] at hq
  obtain ⟨i, hi, hq⟩ := hq
  intro hcontra
  subst hcontra
  have hlen := congrArg List.length hq
  simp only [List.length_take, parentPath, List.length_dropLast] at hlen hi
  omega

theorem lookupFS_ensure_parent (fs : FS) (p : AbsPath) (fs1 : FS)
    (h : ensure_parent_dir fs p = Except.ok fs1) :
    lookupFS fs1 p = lookupFS fs p := by
  simp only [ensure_parent_dir] at h
  split at h
  · cases h
    rw [lookupFS_append]
    have hnone : lookupFS (((ancestorChain (parentPath p)).filter
        (fun q => !pathExists fs q)).map (fun q => (q, Node.dir))) p = none := by
      apply lookupFS_eq_none_of_all_ne
      intro e he
      simp only [List.mem_map, List.mem_filter] at he
      obtain ⟨q, ⟨hq, _⟩, he⟩ := he
      rw [← he]
      exact ancestorChain_keys_ne p q hq
    rw [hnone]
    rfl
  · cases h

/-- C6 (amended): writing a string with write_text and reading it back with
read_text returns the same string for every string that contains no carriage
return, provided the path can be written (no ancestor is a regular file and
the path itself is not a directory); the encoding layer is exact by the
claim's own premise that the encoding can represent the string.  Strings
containing '\r' do not round-trip: see the counterexample. -/
theorem write_read_text_roundtrip (fs : FS) (p : AbsPath) (s : String)
    (hnocr : '\r' ∉ s.data)
    (hanc : (ancestorChain (parentPath p)).all (fun q => !pathIsFile fs q) = true)
    (hnd : pathIsDir fs p = false) :
    ∃ fs1, write_text fs p s = Except.ok fs1 ∧ read_text fs1 p = Except.ok s := by
  have hens : ensure_parent_dir fs p = Except.ok (((ancestorChain
      (parentPath p)).filter (fun q => !pathExists fs q)).map
        (fun q => (q, Node.dir)) ++ fs) := by
    simp only [ensure_parent_dir, hanc, if_true]
  have hlk := lookupFS_ensure_parent fs p _ hens
  have hnd1 : pathIsDir (((ancestorChain (parentPath p)).filter
      (fun q => !pathExists fs q)).map (fun q => (q, Node.dir)) ++ fs) p = false := by
    simp only [pathIsDir] at hnd ⊢
    rw [hlk]
    exact hnd
  refine ⟨(p, Node.file (String.mk (writeNewlineTranslate s.data))) ::
    (((ancestorChain (parentPath p)).filter (fun q => !pathExists fs q)).map
      (fun q => (q, Node.dir)) ++ fs), ?_, ?_⟩
  · rw [write_text, hens]
    simp only [Except.bind, hnd1, Bool.false_eq_true, if_false]
  · simp only [read_text, lookupFS, if_pos]
    rw [writeNewlineTranslate_id, univNewlines_id_of_no_cr s.data hnocr]

/-- Witness for C6 on a concrete input: the string "hello" written to f under
the empty filesystem reads back unchanged. -/
theorem write_read_text_roundtrip_witness :
    ('\r' ∉ "hello".data ∧
      (ancestorChain (parentPath ["f"])).all (fun q => !pathIsFile [] q) = true ∧
      pathIsDir [] ["f"] = false) ∧
    ∃ fs1, write_text [] ["f"] "hello" = Except.ok fs1 ∧
      read_text fs1 ["f"] = Except.ok "hello" :=
  ⟨⟨by decide, by decide, by decide⟩,
    write_read_text_roundtrip [] ["f"] "hello" (by decide) (by decide) (by decide)⟩

/-- C6 counterexample: the claim promises the round trip for every valid
string, but a string containing a carriage return does not survive:
"a\r\nb" is stored as written (os.linesep is '\n' here) and read back with
universal-newlines translation as "a\nb", which differs from the original. -/
theorem write_read_text_carriage_return :
    write_text [] ["f"] "a\r\nb" = Except.ok [(["f"], Node.file "a\r\nb")] ∧
    read_text [(["f"], Node.file "a\r\nb")] ["f"] = Except.ok "a\nb" ∧
    "a\nb" ≠ "a\r\nb" := by
  refine ⟨rfl, rfl, by decide⟩

/-! ### JSON model (write_json / read_json)

write_json serializes with json.dumps(data, indent=2, sort_keys=True) — the
defaults of the source — and appends a newline; read_json parses with
json.loads.  The embedding covers the non-float JSON values (null, booleans,
arbitrary-precision integers, strings, arrays, string-keyed objects);
json.dumps escapes with ensure_ascii, so every character outside printable
ASCII is written as a \-u escape, using a surrogate pair beyond the basic
multilingual plane. -/

/-- A JSON value (floats omitted: floating point is outside the embedding). -/
inductive J where
  | null
  | bool (b : Bool)
  | num (n : Int)
  | str (s : String)
  | arr (items : List J)
  | obj (fields : List (String × J))

mutual

/-- Well-formed as a Python value: every object has distinct keys (a Python
dict cannot hold a key twice), recursively. -/
def Jwf : J → Bool
  | J.null => true
  | J.bool _ => true
  | J.num _ => true
  | J.str _ => true
  | J.arr items => JwfList items
  | J.obj fields =>
      decide ((fields.map Prod.fst).Nodup) && JwfFields fields

/-- Well-formedness of a list of JSON values. -/
def JwfList : List J → Bool
  | [] => true
  | x :: xs => Jwf x && JwfList xs

/-- Well-formedness of the values of an object's fields. -/
def JwfFields : List (String × J) → Bool
  | [] => true
  | f :: rest => Jwf f.2 && JwfFields rest

end

/-- The decimal digit characters. -/
def digitChar : Nat → Char
  | 0 => '0' | 1 => '1' | 2 => '2' | 3 => '3' | 4 => '4'
  | 5 => '5' | 6 => '6' | 7 => '7' | 8 => '8' | 9 => '9'
  | _ => '0'

/-- The lowercase hex digit characters, as json.dumps emits them. -/
def hexDigitChar : Nat → Char
  | 0 => '0' | 1 => '1' | 2 => '2' | 3 => '3' | 4 => '4'
  | 5 => '5' | 6 => '6' | 7 => '7' | 8 => '8' | 9 => '9'
  | 10 => 'a' | 11 => 'b' | 12 => 'c' | 13 => 'd' | 14 => 'e' | 15 => 'f'
  | _ => '0'

/-- Four hex digits for a value below 0x10000 (the XXXX of a \-u escape). -/
def hex4 (n : Nat) : List Char :=
  [hexDigitChar (n / 4096 % 16), hexDigitChar (n / 256 % 16),
    hexDigitChar (n / 16 % 16), hexDigitChar (n % 16)]

/-- Decimal digits of n, most significant first, via fuel-bounded division
(fuel at least n makes it exact). -/
def natDigitsAux : Nat → Nat → List Char
  | 0, _ => []
  | fuel + 1, n =>
      if n = 0 then [] else natDigitsAux fuel (n / 10) ++ [digitChar (n % 10)]

/-- Decimal rendering of a natural number (repr of a Python int ≥ 0). -/
def natChars (n : Nat) : List Char := if n = 0 then ['0'] else natDigitsAux n n

/-- Decimal rendering of an integer (repr of a Python int). -/
def intChars (i : Int) : List Char :=
  if i < 0 then '-' :: natChars i.natAbs else natChars i.toNat

/-- json.dumps escaping of one character with ensure_ascii: the two-character
short escapes, literal printable ASCII, and \-u escapes (a surrogate pair
above the basic multilingual plane) for everything else. -/
def escapeChar (c : Char) : List Char :=
  if c = '"' then ['\\', '"']
  else if c = '\\' then ['\\', '\\']
  else if c = '\n' then ['\\', 'n']
  else if c = '\t' then ['\\', 't']
  else if c = '\r' then ['\\', 'r']
  else if c = '\x08' then ['\\', 'b']
  else if c = '\x0c' then ['\\', 'f']
  else if 0x20 ≤ c.toNat ∧ c.toNat ≤ 0x7E then [c]
  else if c.toNat < 0x10000 then '\\' :: 'u' :: hex4 c.toNat
  else
    ('\\' :: 'u' :: hex4 (0xD800 + (c.toNat - 0x10000) / 0x400)) ++
      ('\\' :: 'u' :: hex4 (0xDC00 + (c.toNat - 0x10000) % 0x400))

/-- json.dumps escaping of a string's characters. -/
def escapeStr : List Char → List Char
  | [] => []
  | c :: rest => escapeChar c ++ escapeStr rest

/-- The indentation json.dumps(indent=2) emits at nesting depth level. -/
def indentChars (level : Nat) : List Char := List.replicate (2 * level) ' '

mutual

/-- Serialize a JSON value at a nesting depth, exactly as
json.dumps(indent=2) lays it out: containers open with a newline, indent
their items by two more spaces, separate them with a comma plus newline, and
close on a fresh line at the parent indent; empty containers print inline. -/
def serJ : Nat → J → List Char
  | _, J.null => ['n', 'u', 'l', 'l']
  | _, J.bool true => ['t', 'r', 'u', 'e']
  | _, J.bool false => ['f', 'a', 'l', 's', 'e']
  | _, J.num n => intChars n
  | _, J.str s => '"' :: (escapeStr s.data ++ ['"'])
  | _, J.arr [] => ['[', ']']
  | level, J.arr (x :: xs) =>
      '[' :: '\n' :: (indentChars (level + 1) ++ serJ (level + 1) x ++
        (serArrRest (level + 1) xs ++ '\n' :: (indentChars level ++ [']'])))
  | _, J.obj [] => ['\x7b', '\x7d']
  | level, J.obj (f :: rest) =>
      '\x7b' :: '\n' :: (indentChars (level + 1) ++ serField (level + 1) f ++
        (serObjRest (level + 1) rest ++ '\n' :: (indentChars level ++ ['\x7d'])))

/-- Serialize one object field: the quoted key, a colon and space, the
value. -/
def serField : Nat → String × J → List Char
  | level, (k, v) => '"' :: (escapeStr k.data ++ ('"' :: ':' :: ' ' :: serJ level v))

/-- Serialize the remaining array items, each preceded by ",\n" and the item
indent. -/
def serArrRest : Nat → List J → List Char
  | _, [] => []
  | level, x :: xs =>
      ',' :: '\n' :: (indentChars level ++ serJ level x ++ serArrRest level xs)

/-- Serialize the remaining object fields, each preceded by ",\n" and the
field indent. -/
def serObjRest : Nat → List (String × J) → List Char
  | _, [] => []
  | level, f :: rest =>
      ',' :: '\n' :: (indentChars level ++ serField level f ++ serObjRest level rest)

end

/-- Insert a field into a key-sorted field list (ascending key order). -/
def insertByKey (f : String × J) : List (String × J) → List (String × J)
  | [] => [f]
  | g :: rest => if g.1 < f.1 then g :: insertByKey f rest else f :: g :: rest

/-- Sort fields by key, the order sort_keys=True serializes an object in. -/
def sortByKey : List (String × J) → List (String × J)
  | [] => []
  | f :: rest => insertByKey f (sortByKey rest)

mutual

/-- Recursively sort every object's fields by key: the value whose plain
serialization equals the sort_keys=True serialization of the original. -/
def sortJ : J → J
  | J.null => J.null
  | J.bool b => J.bool b
  | J.num n => J.num n
  | J.str s => J.str s
  | J.arr items => J.arr (sortJList items)
  | J.obj fields => J.obj (sortByKey (sortJFields fields))

/-- Recursively sort the objects inside a list of values. -/
def sortJList : List J → List J
  | [] => []
  | x :: xs => sortJ x :: sortJList xs

/-- Recursively sort the objects inside field values. -/
def sortJFields : List (String × J) → List (String × J)
  | [] => []
  | (k, v) :: rest => (k, sortJ v) :: sortJFields rest

end

/-- Model of json.dumps(data, indent=2, sort_keys=True) for a mapping: keys
are sorted at every level, then the value is laid out with indent 2. -/
def dumps (d : List (String × J)) : String := String.mk (serJ 0 (sortJ (J.obj d)))

/-- Model of easypath.write_json: dumps plus a trailing newline, through
write_text. -/
def write_json (fs : FS) (p : AbsPath) (d : List (String × J)) : Except String FS :=
  write_text fs p (dumps d ++ "\n")

/-- The whitespace characters json.loads skips between tokens. -/
def isJsonWs (c : Char) : Bool := c = ' ' || c = '\t' || c = '\n' || c = '\r'

/-- Skip inter-token whitespace. -/
def skipWs (cs : List Char) : List Char := cs.dropWhile isJsonWs

/-- The value of a hex digit (upper or lower case), none otherwise. -/
def hexVal (c : Char) : Option Nat :=
  if '0' ≤ c ∧ c ≤ '9' then some (c.toNat - 48)
  else if 'a' ≤ c ∧ c ≤ 'f' then some (c.toNat - 87)
  else if 'A' ≤ c ∧ c ≤ 'F' then some (c.toNat - 55)
  else none

/-- Parse the low half of a surrogate pair: a second \-u escape, returning
its raw hex value. -/
def parseLowSurrogate : List Char → Option (Nat × List Char)
  | '\\' :: 'u' :: g1 :: g2 :: g3 :: g4 :: rest2 =>
    match hexVal g1, hexVal g2, hexVal g3, hexVal g4 with
    | some a, some b, some c, some d =>
        some (a * 4096 + b * 256 + c * 16 + d, rest2)
    | _, _, _, _ => none
  | _ => none

/-- Parse the XXXX of a \-u escape, combining a high surrogate with the
following low-surrogate escape into one character (an unpaired surrogate,
which Python would keep as a non-scalar code unit, has no Char and fails
here; the serializer never produces one). -/
def parseUEscape : List Char → Option (Char × List Char)
  | h1 :: h2 :: h3 :: h4 :: rest =>
    match hexVal h1, hexVal h2, hexVal h3, hexVal h4 with
    | some a, some b, some c, some d =>
      let n := a * 4096 + b * 256 + c * 16 + d
      if 0xD800 ≤ n ∧ n ≤ 0xDBFF then
        (parseLowSurrogate rest).bind (fun p =>
          if 0xDC00 ≤ p.1 ∧ p.1 ≤ 0xDFFF then
            some (Char.ofNat (0x10000 + (n - 0xD800) * 0x400 + (p.1 - 0xDC00)), p.2)
          else none)
      else if 0xDC00 ≤ n ∧ n ≤ 0xDFFF then none
      else some (Char.ofNat n, rest)
    | _, _, _, _ => none
  | _ => none

/-- Parse one backslash escape (the backslash already consumed): the short
escapes and \-u escapes json.loads accepts. -/
def parseEscape : List Char → Option (Char × List Char)
  | '"' :: rest => some ('"', rest)
  | '\\' :: rest => some ('\\', rest)
  | '/' :: rest => some ('/', rest)
  | 'b' :: rest => some ('\x08', rest)
  | 'f' :: rest => some ('\x0c', rest)
  | 'n' :: rest => some ('\n', rest)
  | 'r' :: rest => some ('\r', rest)
  | 't' :: rest => some ('\t', rest)
  | 'u' :: rest => parseUEscape rest
  | _ => none

/-- Parse a JSON string body after the opening quote, as json.loads does in
strict mode: literal characters from 0x20 up and backslash escapes, until the
closing quote.  Each step consumes at least one input character and one unit
of fuel, so fuel beyond the input length never runs out. -/
def parseStrBody : Nat → List Char → Option (List Char × List Char)
  | 0, _ => none
  | fuel + 1, cs =>
    match cs with
    | [] => none
    | c :: rest =>
      if c = '"' then some ([], rest)
      else if c = '\\' then
        (parseEscape rest).bind (fun p =>
          (parseStrBody fuel p.2).map (fun q => (p.1 :: q.1, q.2)))
      else if c.toNat < 0x20 then none
      else (parseStrBody fuel rest).map (fun q => (c :: q.1, q.2))

/-- Split off the leading run of decimal digits. -/
def takeDigits : List Char → List Char × List Char
  | [] => ([], [])
  | c :: rest =>
      if c.isDigit then
        let p := takeDigits rest
        (c :: p.1, p.2)
      else ([], c :: rest)

/-- The numeric value of a digit run, most significant first. -/
def digitsToNat (acc : Nat) (cs : List Char) : Nat :=
  cs.foldl (fun a c => a * 10 + (c.toNat - 48)) acc

/-- Whether the remaining input would extend a digit run into a float (a
fraction or exponent follows). -/
def numContinues : List Char → Bool
  | c :: _ => c = '.' || c = 'e' || c = 'E'
  | [] => false

/-- Parse an unsigned JSON number.  json.loads would go on to match an
optional fraction and exponent, producing a float; floats are outside the
embedding, so a digit run followed by '.', 'e' or 'E' fails here instead. -/
def parseNumNat (cs : List Char) : Option (Nat × List Char) :=
  let p := takeDigits cs
  if p.1 = [] then none
  else if numContinues p.2 then none
  else some (digitsToNat 0 p.1, p.2)

/-- Parse a JSON integer with optional leading minus. -/
def parseNum (cs : List Char) : Option (Int × List Char) :=
  match cs with
  | '-' :: rest => (parseNumNat rest).map (fun (n, r) => (-(n : Int), r))
  | _ => (parseNumNat cs).map (fun (n, r) => ((n : Int), r))

mutual

/-- Parse one JSON value at the head of the input (leading whitespace already
skipped), returning it with the unconsumed rest.  The fuel bounds the nesting
depth of the recursion; loads passes more than the input length, which the
round-trip lemmas show is always enough. -/
def parseVal : Nat → List Char → Option (J × List Char)
  | 0, _ => none
  | _ + 1, 'n' :: 'u' :: 'l' :: 'l' :: rest => some (J.null, rest)
  | _ + 1, 't' :: 'r' :: 'u' :: 'e' :: rest => some (J.bool true, rest)
  | _ + 1, 'f' :: 'a' :: 'l' :: 's' :: 'e' :: rest => some (J.bool false, rest)
  | _ + 1, '"' :: rest =>
      (parseStrBody (rest.length + 1) rest).map
        (fun (s, r) => (J.str (String.mk s), r))
  | fuel + 1, '[' :: rest =>
      match skipWs rest with
      | ']' :: r => some (J.arr [], r)
      | r1 => (parseItems fuel r1).map (fun (vs, r) => (J.arr vs, r))
  | fuel + 1, '\x7b' :: rest =>
      match skipWs rest with
      | '\x7d' :: r => some (J.obj [], r)
      | r1 => (parseFields fuel r1).map (fun (fsx, r) => (J.obj fsx, r))
  | _ + 1, cs => (parseNum cs).map (fun (n, r) => (J.num n, r))
termination_by fuel _ => (fuel, 0)

/-- Parse the items of a non-empty array: a value, then after whitespace
either a comma and more items or the closing bracket. -/
def parseItems : Nat → List Char → Option (List J × List Char)
  | 0, _ => none
  | fuel + 1, cs =>
      (parseVal (fuel + 1) cs).bind (fun (v, r1) =>
        match skipWs r1 with
        | ',' :: r2 =>
            (parseItems fuel (skipWs r2)).map (fun (vs, r3) => (v :: vs, r3))
        | ']' :: r2 => some ([v], r2)
        | _ => none)
termination_by fuel _ => (fuel, 1)

/-- Parse the fields of a non-empty object: a quoted key, a colon, a value,
then after whitespace either a comma and more fields or the closing brace. -/
def parseFields : Nat → List Char → Option (List (String × J) × List Char)
  | 0, _ => none
  | fuel + 1, cs =>
      match cs with
      | '"' :: r0 =>
        (parseStrBody (r0.length + 1) r0).bind (fun (kcs, r1) =>
          match skipWs r1 with
          | ':' :: r2 =>
            (parseVal (fuel + 1) (skipWs r2)).bind (fun (v, r3) =>
              match skipWs r3 with
              | ',' :: r4 =>
                  (parseFields fuel (skipWs r4)).map
                    (fun (fsx, r5) => ((String.mk kcs, v) :: fsx, r5))
              | '\x7d' :: r4 => some ([(String.mk kcs, v)], r4)
              | _ => none)
          | _ => none)
      | _ => none
termination_by fuel _ => (fuel, 2)

end

/-- Model of json.loads for our fragment: skip surrounding whitespace, parse
one value, require the input to be exhausted. -/
def loads (s : String) : Except String J :=
  match parseVal (s.data.length + 1) (skipWs s.data) with
  | some (v, rest) =>
      if skipWs rest = [] then Except.ok v
      else Except.error "JSONDecodeError: Extra data"
  | none => Except.error "JSONDecodeError"

/-- Model of easypath.read_json: read_text then json.loads. -/
def read_json (fs : FS) (p : AbsPath) : Except String J :=
  (read_text fs p).bind (fun s => loads s)

/-- First binding of a key in a field list (how a nodup-keyed Python dict
resolves a key). -/
def lookupKV : List (String × J) → String → Option J
  | [], _ => none
  | (k, v) :: rest, key => if k = key then some v else lookupKV rest key

mutual

/-- Python == on the embedded JSON values: structural on scalars and arrays,
key-set based on objects (dict equality ignores field order). -/
def jsonEq : J → J → Bool
  | J.null, J.null => true
  | J.bool a, J.bool b => a == b
  | J.num a, J.num b => a == b
  | J.str a, J.str b => a == b
  | J.arr xs, J.arr ys => jsonEqList xs ys
  | J.obj fa, J.obj fb =>
      jsonEqFields fa fb && fb.all (fun g => (lookupKV fa g.1).isSome)
  | _, _ => false

/-- Pointwise equality of value lists. -/
def jsonEqList : List J → List J → Bool
  | [], [] => true
  | x :: xs, y :: ys => jsonEq x y && jsonEqList xs ys
  | _, _ => false

/-- Every field of the first list is bound, with an equal value, in the
second. -/
def jsonEqFields : List (String × J) → List (String × J) → Bool
  | [], _ => true
  | (k, v) :: rest, other =>
      (match lookupKV other k with
        | some w => jsonEq v w
        | none => false) && jsonEqFields rest other

end

/-! ### Round-trip lemmas: numbers -/

mutual

/-- Fuel needed by the parser for a value (bounds the recursion depth). -/
def sizeJ : J → Nat
  | J.null => 1
  | J.bool _ => 1
  | J.num _ => 1
  | J.str _ => 1
  | J.arr items => 1 + sizeItems items
  | J.obj fields => 1 + sizeFields fields

/-- Fuel needed for the items of an array. -/
def sizeItems : List J → Nat
  | [] => 0
  | x :: xs => 1 + sizeJ x + sizeItems xs

/-- Fuel needed for the fields of an object. -/
def sizeFields : List (String × J) → Nat
  | [] => 0
  | f :: rest => 1 + sizeJ f.2 + sizeFields rest

end

theorem sizeJ_pos (v : J) : 1 ≤ sizeJ v := by
  cases v <;> simp [sizeJ] <;> omega

/-- What may legally follow a serialized number without extending it: not a
digit and not the start of a fraction or exponent. -/
def numBoundary (cs : List Char) : Prop :=
  ∀ c, cs.head? = some c →
    c.isDigit = false ∧ c ≠ '.' ∧ c ≠ 'e' ∧ c ≠ 'E'

theorem digitChar_isDigit (m : Nat) (h : m < 10) : (digitChar m).isDigit = true := by
  interval_cases m <;> decide

theorem digitChar_val (m : Nat) (h : m < 10) : (digitChar m).toNat - 48 = m := by
  interval_cases m <;> decide

theorem natDigitsAux_all_digits (fuel : Nat) :
    ∀ n c, c ∈ natDigitsAux fuel n → c.isDigit = true := by
  induction fuel with
  | zero => intro n c hc; simp [natDigitsAux] at hc
  | succ fuel ih =>
    intro n c hc
    rw [natDigitsAux] at hc
    split at hc
    · simp at hc
    · rcases List.mem_append.mp hc with h | h
      · exact ih _ c h
      · rw [List.mem_singleton] at h
        subst h
        exact digitChar_isDigit _ (Nat.mod_lt _ (by omega))

theorem digitsToNat_append_single (d : Char) (xs : List Char) (acc : Nat) :
    digitsToNat acc (xs ++ [d]) = 10 * digitsToNat acc xs + (d.toNat - 48) := by
  simp only [digitsToNat, List.foldl_append, List.foldl_cons, List.foldl_nil]
  omega

theorem digitsToNat_natDigitsAux (fuel : Nat) :
    ∀ n acc, n ≤ fuel →
      digitsToNat acc (natDigitsAux fuel n) =
        acc * 10 ^ (natDigitsAux fuel n).length + n := by
  induction fuel with
  | zero =>
    intro n acc h
    have hn : n = 0 := by omega
    subst hn
    simp [natDigitsAux, digitsToNat]
  | succ fuel ih =>
    intro n acc h
    rw [natDigitsAux]
    by_cases hn : n = 0
    · simp [hn, digitsToNat]
    · rw [if_neg hn, digitsToNat_append_single, ih (n / 10) acc (by omega),
        digitChar_val _ (Nat.mod_lt _ (by omega))]
      rw [List.length_append, List.length_singleton, pow_succ]
      have := Nat.div_add_mod n 10
      ring_nf
      omega

theorem digitsToNat_natChars (n : Nat) : digitsToNat 0 (natChars n) = n := by
  rw [natChars]
  by_cases hn : n = 0
  · simp [hn, digitsToNat]
  · rw [if_neg hn, digitsToNat_natDigitsAux n n 0 (Nat.le_refl n)]
    simp

theorem natChars_all_digits (n : Nat) : ∀ c ∈ natChars n, c.isDigit = true := by
  intro c hc
  rw [natChars] at hc
  split at hc
  · rw [List.mem_singleton] at hc; subst hc; decide
  · exact natDigitsAux_all_digits n n c hc

theorem natChars_ne_nil (n : Nat) : natChars n ≠ [] := by
  rw [natChars]
  split
  · simp
  · rename_i hn
    have h2 : n ≤ n := Nat.le_refl n
    have := digitsToNat_natDigitsAux n n 1 h2
    intro hc
    rw [hc] at this
    simp [digitsToNat] at this
    omega

theorem takeDigits_digit_run :
    ∀ (ds rest : List Char), (∀ c ∈ ds, c.isDigit = true) →
      (∀ c, rest.head? = some c → c.isDigit = false) →
      takeDigits (ds ++ rest) = (ds, rest)
  | [], rest => by
    intro _ hrest
    cases rest with
    | nil => simp [takeDigits]
    | cons c r =>
      have := hrest c rfl
      simp [takeDigits, this]
  | d :: ds, rest => by
    intro hds hrest
    have hd : d.isDigit = true := hds d (List.mem_cons_self _ _)
    have ih := takeDigits_digit_run ds rest
      (fun c hc => hds c (List.mem_cons_of_mem _ hc)) hrest
    simp only [List.cons_append, takeDigits, hd, if_true]
    rw [show ds.append rest = ds ++ rest from rfl, ih]

theorem parseNumNat_natChars (n : Nat) (rest : List Char)
    (hrest : numBoundary rest) :
    parseNumNat (natChars n ++ rest) = some (n, rest) := by
  have htake : takeDigits (natChars n ++ rest) = (natChars n, rest) :=
    takeDigits_digit_run (natChars n) rest (natChars_all_digits n)
      (fun c hc => (hrest c hc).1)
  have hcont : numContinues rest = false := by
    cases rest with
    | nil => rfl
    | cons c r =>
      obtain ⟨h1, h2, h3, h4⟩ := hrest c rfl
      simp [numContinues, h2, h3, h4]
  simp only [parseNumNat, htake]
  rw [if_neg (natChars_ne_nil n), hcont, if_neg (by simp), digitsToNat_natChars]

theorem parseNum_intChars (i : Int) (rest : List Char)
    (hrest : numBoundary rest) :
    parseNum (intChars i ++ rest) = some (i, rest) := by
  rw [intChars]
  by_cases hi : i < 0
  · rw [if_pos hi]
    simp only [List.cons_append, parseNum, parseNumNat_natChars _ _ hrest,
      Option.map]
    have habs : -((i.natAbs : Int)) = i := by omega
    rw [habs]
  · rw [if_neg hi]
    obtain ⟨d, ds, hds⟩ : ∃ d ds, natChars i.toNat = d :: ds := by
      cases hnc : natChars i.toNat with
      | nil => exact absurd hnc (natChars_ne_nil _)
      | cons d ds => exact ⟨d, ds, rfl⟩
    have hd : d.isDigit = true :=
      natChars_all_digits _ d (hds ▸ List.mem_cons_self _ _)
    have hdm : d ≠ '-' := by
      intro hc
      rw [hc] at hd
      exact absurd hd (by decide)
    rw [parseNum.eq_def]
    rw [hds]
    simp only [List.cons_append]
    split
    · rename_i heq
      rw [List.cons.injEq] at heq
      exact absurd heq.1 hdm
    · rw [← List.cons_append, ← hds, parseNumNat_natChars _ _ hrest]
      simp only [Option.map]
      have habs : ((i.toNat : Int)) = i := by omega
      rw [habs]

/-! ### Round-trip lemmas: strings -/

theorem char_toNat_valid (c : Char) :
    c.toNat < 0xD800 ∨ (0xDFFF < c.toNat ∧ c.toNat < 0x110000) := by
  have h := c.valid
  simp only [UInt32.isValidChar, Nat.isValidChar] at h
  exact h

theorem hexVal_hexDigitChar (m : Nat) (h : m < 16) :
    hexVal (hexDigitChar m) = some m := by
  interval_cases m <;> decide

theorem hex4_combine (n : Nat) (h : n < 0x10000) :
    n / 4096 % 16 * 4096 + n / 256 % 16 * 256 + n / 16 % 16 * 16 + n % 16 = n := by
  omega

theorem parseLowSurrogate_hex4 (m : Nat) (tail : List Char) (h : m < 0x10000) :
    parseLowSurrogate ('\\' :: 'u' :: hex4 m ++ tail) = some (m, tail) := by
  simp only [hex4, List.cons_append, List.nil_append, parseLowSurrogate,
    hexVal_hexDigitChar _ (Nat.mod_lt _ (by omega))]
  rw [hex4_combine m h]

theorem parseUEscape_single (n : Nat) (tail : List Char) (h9 : n < 0x10000)
    (hns : ¬ (0xD800 ≤ n ∧ n ≤ 0xDFFF)) :
    parseUEscape (hex4 n ++ tail) = some (Char.ofNat n, tail) := by
  simp only [hex4, List.cons_append, List.nil_append, parseUEscape,
    hexVal_hexDigitChar _ (Nat.mod_lt _ (by omega))]
  rw [hex4_combine n h9]
  rw [if_neg (by omega), if_neg (by omega)]

theorem parseUEscape_pair (hi lo : Nat) (tail : List Char)
    (hhi : 0xD800 ≤ hi ∧ hi ≤ 0xDBFF) (hlo : 0xDC00 ≤ lo ∧ lo ≤ 0xDFFF) :
    parseUEscape (hex4 hi ++ ('\\' :: 'u' :: (hex4 lo ++ tail))) =
      some (Char.ofNat (0x10000 + (hi - 0xD800) * 0x400 + (lo - 0xDC00)), tail) := by
  simp only [hex4, List.cons_append, List.nil_append, parseUEscape,
    hexVal_hexDigitChar _ (Nat.mod_lt _ (by omega))]
  rw [hex4_combine hi (by omega)]
  rw [if_pos (by omega)]
  have hps := parseLowSurrogate_hex4 lo tail (by omega)
  simp only [hex4, List.cons_append, List.nil_append] at hps
  rw [hps, Option.some_bind, if_pos (by omega)]

set_option maxHeartbeats 1000000 in
theorem parseStrBody_escapeChar (c : Char) (tail : List Char) (fuel : Nat) :
    parseStrBody (fuel + 1) (escapeChar c ++ tail) =
      (parseStrBody fuel tail).map (fun q => (c :: q.1, q.2)) := by
  have hvalid := char_toNat_valid c
  rw [escapeChar]
  by_cases h1 : c = '"'
  · subst h1; rw [if_pos rfl]; rfl
  rw [if_neg h1]
  by_cases h2 : c = '\\'
  · subst h2; rw [if_pos rfl]; rfl
  rw [if_neg h2]
  by_cases h3 : c = '\n'
  · subst h3; rw [if_pos rfl]; rfl
  rw [if_neg h3]
  by_cases h4 : c = '\t'
  · subst h4; rw [if_pos rfl]; rfl
  rw [if_neg h4]
  by_cases h5 : c = '\r'
  · subst h5; rw [if_pos rfl]; rfl
  rw [if_neg h5]
  by_cases h6 : c = '\x08'
  · subst h6; rw [if_pos rfl]; rfl
  rw [if_neg h6]
  by_cases h7 : c = '\x0c'
  · subst h7; rw [if_pos rfl]; rfl
  rw [if_neg h7]
  by_cases h8 : 0x20 ≤ c.toNat ∧ c.toNat ≤ 0x7E
  · rw [if_pos h8]
    rw [List.singleton_append]
    simp only [parseStrBody]
    rw [if_neg h1, if_neg h2, if_neg (by omega : ¬ c.toNat < 0x20)]
  · rw [if_neg h8]
    by_cases h9 : c.toNat < 0x10000
    · rw [if_pos h9]
      have hns : ¬ (0xD800 ≤ c.toNat ∧ c.toNat ≤ 0xDFFF) := by omega
      simp only [List.cons_append]
      simp only [parseStrBody, parseEscape]
      rw [if_pos trivial]
      rw [parseUEscape_single c.toNat tail h9 hns, Char.ofNat_toNat]
      rfl
    · rw [if_neg h9]
      have hhir : 0xD800 ≤ 0xD800 + (c.toNat - 0x10000) / 0x400 ∧
          0xD800 + (c.toNat - 0x10000) / 0x400 ≤ 0xDBFF := by omega
      have hlor : 0xDC00 ≤ 0xDC00 + (c.toNat - 0x10000) % 0x400 ∧
          0xDC00 + (c.toNat - 0x10000) % 0x400 ≤ 0xDFFF := by
        have := Nat.mod_lt (c.toNat - 0x10000) (show 0 < 0x400 by omega)
        omega
      simp only [List.cons_append, List.append_assoc]
      simp only [parseStrBody, parseEscape]
      rw [if_neg (show ¬ ('\\' : Char) = '"' by decide)]
      rw [parseUEscape_pair _ _ tail hhir hlor]
      have hchar : 0x10000 +
          (0xD800 + (c.toNat - 0x10000) / 0x400 - 0xD800) * 0x400 +
          (0xDC00 + (c.toNat - 0x10000) % 0x400 - 0xDC00) = c.toNat := by
        have := Nat.div_add_mod (c.toNat - 0x10000) 0x400
        omega
      rw [hchar, Char.ofNat_toNat]
      rfl

theorem parseStrBody_escapeStr :
    ∀ (s rest : List Char) (fuel : Nat), s.length + 1 ≤ fuel →
      parseStrBody fuel (escapeStr s ++ '"' :: rest) = some (s, rest)
  | [], rest, fuel => by
    intro hfuel
    obtain ⟨f, rfl⟩ : ∃ f, fuel = f + 1 := ⟨fuel - 1, by omega⟩
    rfl
  | c :: s, rest, fuel => by
    intro hfuel
    obtain ⟨f, rfl⟩ : ∃ f, fuel = f + 1 := ⟨fuel - 1, by omega⟩
    rw [escapeStr, List.append_assoc, parseStrBody_escapeChar,
      parseStrBody_escapeStr s rest f (by simp at hfuel; omega)]
    rfl

/-! ### Round-trip lemmas: whitespace and token heads -/

theorem skipWs_cons_not_ws (c : Char) (cs : List Char) (h : isJsonWs c = false) :
    skipWs (c :: cs) = c :: cs := by
  simp [skipWs, List.dropWhile_cons, h]

theorem skipWs_cons_ws (c : Char) (cs : List Char) (h : isJsonWs c = true) :
    skipWs (c :: cs) = skipWs cs := by
  simp [skipWs, List.dropWhile_cons, h]

theorem skipWs_replicate_space (m : Nat) (cs : List Char) :
    skipWs (List.replicate m ' ' ++ cs) = skipWs cs := by
  induction m with
  | zero => rfl
  | succ m ih =>
    rw [List.replicate_succ, List.cons_append, skipWs_cons_ws _ _ (by decide), ih]

theorem skipWs_indent (level : Nat) (cs : List Char) :
    skipWs (indentChars level ++ cs) = skipWs cs :=
  skipWs_replicate_space (2 * level) cs

/-- The characters a serialized JSON value can start with. -/
def jsonHeadChar (c : Char) : Bool :=
  c = 'n' || c = 't' || c = 'f' || c = '"' || c = '[' || c = '\x7b' ||
    c = '-' || c.isDigit

theorem jsonHead_props (c : Char) (h : jsonHeadChar c = true) :
    isJsonWs c = false ∧ c ≠ ']' ∧ c ≠ '\x7d' ∧ c ≠ ',' := by
  simp only [jsonHeadChar, Bool.or_eq_true, decide_eq_true_eq] at h
  rcases h with ((((((h | h) | h) | h) | h) | h) | h) | h
  · subst h; exact ⟨by decide, by decide, by decide, by decide⟩
  · subst h; exact ⟨by decide, by decide, by decide, by decide⟩
  · subst h; exact ⟨by decide, by decide, by decide, by decide⟩
  · subst h; exact ⟨by decide, by decide, by decide, by decide⟩
  · subst h; exact ⟨by decide, by decide, by decide, by decide⟩
  · subst h; exact ⟨by decide, by decide, by decide, by decide⟩
  · subst h; exact ⟨by decide, by decide, by decide, by decide⟩
  · refine ⟨?_, ?_, ?_, ?_⟩
    · cases hc : isJsonWs c with
      | false => rfl
      | true =>
        simp only [isJsonWs, Bool.or_eq_true, decide_eq_true_eq] at hc
        rcases hc with ((hc | hc) | hc) | hc <;>
          (subst hc; exact absurd h (by decide))
    · intro hc; subst hc; exact absurd h (by decide)
    · intro hc; subst hc; exact absurd h (by decide)
    · intro hc; subst hc; exact absurd h (by decide)

theorem natChars_head (n : Nat) :
    ∃ c cs, natChars n = c :: cs ∧ c.isDigit = true := by
  cases hnc : natChars n with
  | nil => exact absurd hnc (natChars_ne_nil n)
  | cons c cs =>
    exact ⟨c, cs, rfl, natChars_all_digits n c (hnc ▸ List.mem_cons_self _ _)⟩

theorem intChars_head (i : Int) :
    ∃ c cs, intChars i = c :: cs ∧ jsonHeadChar c = true := by
  rw [intChars]
  by_cases hi : i < 0
  · rw [if_pos hi]
    exact ⟨'-', _, rfl, by decide⟩
  · rw [if_neg hi]
    obtain ⟨c, cs, hc, hd⟩ := natChars_head i.toNat
    exact ⟨c, cs, hc, by simp [jsonHeadChar, hd]⟩

theorem serJ_head (level : Nat) (v : J) :
    ∃ c cs, serJ level v = c :: cs ∧ jsonHeadChar c = true := by
  cases v with
  | null => exact ⟨'n', _, rfl, by decide⟩
  | bool b => cases b with
    | true => exact ⟨'t', _, rfl, by decide⟩
    | false => exact ⟨'f', _, rfl, by decide⟩
  | num n => simpa only [serJ] using intChars_head n
  | str s => exact ⟨'"', _, rfl, by decide⟩
  | arr items => cases items with
    | nil => exact ⟨'[', _, rfl, by decide⟩
    | cons x xs => exact ⟨'[', _, rfl, by decide⟩
  | obj fields => cases fields with
    | nil => exact ⟨'\x7b', _, rfl, by decide⟩
    | cons f rest => exact ⟨'\x7b', _, rfl, by decide⟩

/-! ### The serializer never emits a carriage return -/

theorem digitChar_ne_cr (m : Nat) : digitChar m ≠ '\r' := by
  rw [digitChar.eq_def]
  split <;> decide

theorem hexDigitChar_ne_cr (m : Nat) : hexDigitChar m ≠ '\r' := by
  rw [hexDigitChar.eq_def]
  split <;> decide

theorem cr_not_natDigitsAux (fuel : Nat) : ∀ n, '\r' ∉ natDigitsAux fuel n := by
  intro n hc
  have := natDigitsAux_all_digits fuel n '\r' hc
  exact absurd this (by decide)

theorem cr_not_intChars (i : Int) : '\r' ∉ intChars i := by
  intro hc
  rw [intChars] at hc
  have hn : ∀ m : Nat, '\r' ∉ natChars m := by
    intro m hm
    have := natChars_all_digits m '\r' hm
    exact absurd this (by decide)
  split at hc
  · rcases List.mem_cons.mp hc with h | h
    · exact absurd h (by decide)
    · exact hn _ h
  · exact hn _ hc

theorem cr_not_hex4 (n : Nat) : '\r' ∉ hex4 n := by
  intro hc
  simp only [hex4, List.mem_cons, List.not_mem_nil, or_false] at hc
  rcases hc with h | h | h | h <;> exact hexDigitChar_ne_cr _ h.symm

theorem cr_not_escapeChar (c : Char) : '\r' ∉ escapeChar c := by
  intro hc
  rw [escapeChar] at hc
  split_ifs at hc with h1 h2 h3 h4 h5 h6 h7 h8 h9
  · exact absurd hc (by decide)
  · exact absurd hc (by decide)
  · exact absurd hc (by decide)
  · exact absurd hc (by decide)
  · exact absurd hc (by decide)
  · exact absurd hc (by decide)
  · exact absurd hc (by decide)
  · rw [List.mem_singleton] at hc
    subst hc
    exact absurd h8 (by decide)
  · rcases List.mem_cons.mp hc with h | h
    · exact absurd h (by decide)
    rcases List.mem_cons.mp h with h | h
    · exact absurd h (by decide)
    · exact cr_not_hex4 _ h
  · rcases List.mem_append.mp hc with h | h <;>
    · rcases List.mem_cons.mp h with h | h
      · exact absurd h (by decide)
      rcases List.mem_cons.mp h with h | h
      · exact absurd h (by decide)
      · exact cr_not_hex4 _ h

theorem cr_not_escapeStr : ∀ s : List Char, '\r' ∉ escapeStr s
  | [] => by simp [escapeStr]
  | c :: s => by
    intro hc
    rw [escapeStr] at hc
    rcases List.mem_append.mp hc with h | h
    · exact cr_not_escapeChar c h
    · exact cr_not_escapeStr s h

theorem cr_not_indent (level : Nat) : '\r' ∉ indentChars level := by
  intro hc
  rw [indentChars, List.mem_replicate] at hc
  exact absurd hc.2 (by decide)

mutual

theorem cr_not_serJ : ∀ (level : Nat) (v : J), '\r' ∉ serJ level v
  | level, J.null => by intro hc; rw [serJ] at hc; exact absurd hc (by decide)
  | level, J.bool true => by intro hc; rw [serJ] at hc; exact absurd hc (by decide)
  | level, J.bool false => by intro hc; rw [serJ] at hc; exact absurd hc (by decide)
  | level, J.num n => cr_not_intChars n
  | level, J.str s => by
    intro hc
    rw [serJ] at hc
    rcases List.mem_cons.mp hc with h | h
    · exact absurd h (by decide)
    rcases List.mem_append.mp h with h | h
    · exact cr_not_escapeStr _ h
    · exact absurd h (by decide)
  | level, J.arr [] => by intro hc; rw [serJ] at hc; exact absurd hc (by decide)
  | level, J.arr (x :: xs) => by
    intro hc
    rw [serJ] at hc
    rcases List.mem_cons.mp hc with h | h
    · exact absurd h (by decide)
    rcases List.mem_cons.mp h with h | h
    · exact absurd h (by decide)
    rcases List.mem_append.mp h with h | h
    · rcases List.mem_append.mp h with h | h
      · exact cr_not_indent _ h
      · exact cr_not_serJ (level + 1) x h
    · rcases List.mem_append.mp h with h | h
      · exact cr_not_serArrRest (level + 1) xs h
      · rcases List.mem_cons.mp h with h | h
        · exact absurd h (by decide)
        · rcases List.mem_append.mp h with h | h
          · exact cr_not_indent _ h
          · exact absurd h (by decide)
  | level, J.obj [] => by intro hc; rw [serJ] at hc; exact absurd hc (by decide)
  | level, J.obj (f :: rest) => by
    intro hc
    rw [serJ] at hc
    rcases List.mem_cons.mp hc with h | h
    · exact absurd h (by decide)
    rcases List.mem_cons.mp h with h | h
    · exact absurd h (by decide)
    rcases List.mem_append.mp h with h | h
    · rcases List.mem_append.mp h with h | h
      · exact cr_not_indent _ h
      · exact cr_not_serField (level + 1) f h
    · rcases List.mem_append.mp h with h | h
      · exact cr_not_serObjRest (level + 1) rest h
      · rcases List.mem_cons.mp h with h | h
        · exact absurd h (by decide)
        · rcases List.mem_append.mp h with h | h
          · exact cr_not_indent _ h
          · exact absurd h (by decide)

theorem cr_not_serField : ∀ (level : Nat) (f : String × J), '\r' ∉ serField level f
  | level, (k, v) => by
    intro hc
    rw [serField] at hc
    rcases List.mem_cons.mp hc with h | h
    · exact absurd h (by decide)
    rcases List.mem_append.mp h with h | h
    · exact cr_not_escapeStr _ h
    rcases List.mem_cons.mp h with h | h
    · exact absurd h (by decide)
    rcases List.mem_cons.mp h with h | h
    · exact absurd h (by decide)
    rcases List.mem_cons.mp h with h | h
    · exact absurd h (by decide)
    · exact cr_not_serJ level v h

theorem cr_not_serArrRest : ∀ (level : Nat) (xs : List J), '\r' ∉ serArrRest level xs
  | level, [] => by intro hc; rw [serArrRest] at hc; exact absurd hc (by decide)
  | level, x :: xs => by
    intro hc
    rw [serArrRest] at hc
    rcases List.mem_cons.mp hc with h | h
    · exact absurd h (by decide)
    rcases List.mem_cons.mp h with h | h
    · exact absurd h (by decide)
    rcases List.mem_append.mp h with h | h
    · rcases List.mem_append.mp h with h | h
      · exact cr_not_indent _ h
      · exact cr_not_serJ level x h
    · exact cr_not_serArrRest level xs h

theorem cr_not_serObjRest :
    ∀ (level : Nat) (rest : List (String × J)), '\r' ∉ serObjRest level rest
  | level, [] => by intro hc; rw [serObjRest] at hc; exact absurd hc (by decide)
  | level, f :: rest => by
    intro hc
    rw [serObjRest] at hc
    rcases List.mem_cons.mp hc with h | h
    · exact absurd h (by decide)
    rcases List.mem_cons.mp h with h | h
    · exact absurd h (by decide)
    rcases List.mem_append.mp h with h | h
    · rcases List.mem_append.mp h with h | h
      · exact cr_not_indent _ h
      · exact cr_not_serField level f h
    · exact cr_not_serObjRest level rest h

end

theorem escapeChar_length_pos (c : Char) : 1 ≤ (escapeChar c).length := by
  rw [escapeChar]
  split_ifs <;> simp [hex4]

theorem escapeStr_length_ge : ∀ s : List Char, s.length ≤ (escapeStr s).length
  | [] => Nat.le_refl 0
  | c :: s => by
    rw [escapeStr, List.length_append, List.length_cons]
    have h1 := escapeChar_length_pos c
    have h2 := escapeStr_length_ge s
    omega

theorem numBoundary_of_head (c : Char) (cs : List Char)
    (h : c.isDigit = false ∧ c ≠ '.' ∧ c ≠ 'e' ∧ c ≠ 'E') :
    numBoundary (c :: cs) := by
  intro c' hc'
  rw [List.head?_cons, Option.some.injEq] at hc'
  subst hc'
  exact h

theorem intChars_head_strong (i : Int) :
    ∃ c cs, intChars i = c :: cs ∧ (c = '-' ∨ c.isDigit = true) := by
  rw [intChars]
  by_cases hi : i < 0
  · rw [if_pos hi]
    exact ⟨'-', _, rfl, Or.inl rfl⟩
  · rw [if_neg hi]
    obtain ⟨c, cs, hc, hd⟩ := natChars_head i.toNat
    exact ⟨c, cs, hc, Or.inr hd⟩

/-! ### The main round-trip: parsing a serialized value gives it back -/

set_option maxHeartbeats 2000000

theorem parseVal_default (f : Nat) (c : Char) (cs : List Char)
    (h1 : c ≠ 'n') (h2 : c ≠ 't') (h3 : c ≠ 'f') (h4 : c ≠ '"')
    (h5 : c ≠ '[') (h6 : c ≠ '\x7b') :
    parseVal (f + 1) (c :: cs) =
      (parseNum (c :: cs)).map (fun p => (J.num p.1, p.2)) := by
  rw [parseVal.eq_def]
  split
  · rename_i heq; exact absurd heq (by omega)
  · rename_i heq; rw [List.cons.injEq] at heq; exact absurd heq.1 h1
  · rename_i heq; rw [List.cons.injEq] at heq; exact absurd heq.1 h2
  · rename_i heq; rw [List.cons.injEq] at heq; exact absurd heq.1 h3
  · rename_i heq; rw [List.cons.injEq] at heq; exact absurd heq.1 h4
  · rename_i heq; rw [List.cons.injEq] at heq; exact absurd heq.1 h5
  · rename_i heq; rw [List.cons.injEq] at heq; exact absurd heq.1 h6
  · rfl

mutual

theorem parseVal_ser : ∀ (v : J) (level fuel : Nat) (rest : List Char),
    sizeJ v ≤ fuel → numBoundary rest →
    parseVal fuel (serJ level v ++ rest) = some (v, rest)
  | J.null, level, fuel, rest => fun hfuel _ => by
    obtain ⟨f, rfl⟩ : ∃ f, fuel = f + 1 :=
      ⟨fuel - 1, by have := sizeJ_pos J.null; omega⟩
    rw [serJ]
    simp only [List.cons_append, List.nil_append, parseVal]
  | J.bool true, level, fuel, rest => fun hfuel _ => by
    obtain ⟨f, rfl⟩ : ∃ f, fuel = f + 1 :=
      ⟨fuel - 1, by have := sizeJ_pos (J.bool true); omega⟩
    rw [serJ]
    simp only [List.cons_append, List.nil_append, parseVal]
  | J.bool false, level, fuel, rest => fun hfuel _ => by
    obtain ⟨f, rfl⟩ : ∃ f, fuel = f + 1 :=
      ⟨fuel - 1, by have := sizeJ_pos (J.bool false); omega⟩
    rw [serJ]
    simp only [List.cons_append, List.nil_append, parseVal]
  | J.num n, level, fuel, rest => fun hfuel hrest => by
    obtain ⟨f, rfl⟩ : ∃ f, fuel = f + 1 :=
      ⟨fuel - 1, by have := sizeJ_pos (J.num n); omega⟩
    rw [serJ]
    obtain ⟨c, cs, hc, hhead⟩ := intChars_head_strong n
    have hne : c ≠ 'n' ∧ c ≠ 't' ∧ c ≠ 'f' ∧ c ≠ '"' ∧ c ≠ '[' ∧ c ≠ '\x7b' := by
      rcases hhead with h | h
      · subst h
        exact ⟨by decide, by decide, by decide, by decide, by decide, by decide⟩
      · refine ⟨?_, ?_, ?_, ?_, ?_, ?_⟩ <;>
          (intro hx; rw [hx] at h; exact absurd h (by decide))
    rw [hc, List.cons_append,
      parseVal_default f c _ hne.1 hne.2.1 hne.2.2.1 hne.2.2.2.1
        hne.2.2.2.2.1 hne.2.2.2.2.2]
    rw [← List.cons_append, ← hc, parseNum_intChars n rest hrest]
    rfl
  | J.str s, level, fuel, rest => fun hfuel _ => by
    obtain ⟨f, rfl⟩ : ∃ f, fuel = f + 1 :=
      ⟨fuel - 1, by have := sizeJ_pos (J.str s); omega⟩
    rw [serJ]
    simp only [List.cons_append, List.append_assoc, List.singleton_append,
      List.nil_append]
    simp only [parseVal]
    rw [parseStrBody_escapeStr s.data rest _ (by
      rw [List.length_append, List.length_cons]
      have := escapeStr_length_ge s.data
      omega)]
    simp only [Option.map_some']
  | J.arr [], level, fuel, rest => fun hfuel _ => by
    obtain ⟨f, rfl⟩ : ∃ f, fuel = f + 1 :=
      ⟨fuel - 1, by have := sizeJ_pos (J.arr []); omega⟩
    rw [serJ]
    simp only [List.cons_append, List.nil_append]
    simp only [parseVal]
    rw [skipWs_cons_not_ws _ _ (by decide)]
    rfl
  | J.arr (x :: xs), level, fuel, rest => fun hfuel _ => by
    obtain ⟨f, rfl⟩ : ∃ f, fuel = f + 1 :=
      ⟨fuel - 1, by have := sizeJ_pos (J.arr (x :: xs)); omega⟩
    rw [serJ]
    simp only [List.cons_append, List.append_assoc, List.singleton_append,
      List.nil_append]
    simp only [parseVal]
    rw [skipWs_cons_ws _ _ (by decide), skipWs_indent]
    obtain ⟨c, cs, hc, hhead⟩ := serJ_head (level + 1) x
    have hprops := jsonHead_props c hhead
    rw [hc, List.cons_append, skipWs_cons_not_ws _ _ hprops.1]
    have hitems := parseItems_ser x xs (level + 1) level f rest (by
      rw [sizeJ, sizeItems] at hfuel
      omega)
    rw [hc, List.cons_append] at hitems
    split
    · rename_i heq
      rw [List.cons.injEq] at heq
      exact absurd heq.1 hprops.2.1
    · rename_i hne
      rw [hitems]
      rfl
  | J.obj [], level, fuel, rest => fun hfuel _ => by
    obtain ⟨f, rfl⟩ : ∃ f, fuel = f + 1 :=
      ⟨fuel - 1, by have := sizeJ_pos (J.obj []); omega⟩
    rw [serJ]
    simp only [List.cons_append, List.nil_append]
    simp only [parseVal]
    rw [skipWs_cons_not_ws _ _ (by decide)]
    rfl
  | J.obj (fld :: flds), level, fuel, rest => fun hfuel _ => by
    obtain ⟨f, rfl⟩ : ∃ f, fuel = f + 1 :=
      ⟨fuel - 1, by have := sizeJ_pos (J.obj (fld :: flds)); omega⟩
    rw [serJ]
    simp only [List.cons_append, List.append_assoc, List.singleton_append,
      List.nil_append]
    simp only [parseVal]
    rw [skipWs_cons_ws _ _ (by decide), skipWs_indent]
    have hfields := parseFields_ser fld.1 fld.2 flds (level + 1) level f rest (by
      rw [sizeJ, sizeFields] at hfuel
      omega)
    obtain ⟨c, cs, hc, hhead⟩ : ∃ c cs,
        serField (level + 1) fld = c :: cs ∧ jsonHeadChar c = true := by
      obtain ⟨k, v⟩ := fld
      exact ⟨'"', _, rfl, by decide⟩
    have hprops := jsonHead_props c hhead
    rw [show ((fld.1, fld.2) : String × J) = fld from rfl] at hfields
    rw [hc, List.cons_append] at hfields ⊢
    rw [skipWs_cons_not_ws _ _ hprops.1]
    split
    · rename_i heq
      rw [List.cons.injEq] at heq
      exact absurd heq.1 hprops.2.2.1
    · rw [hfields]
      rfl
termination_by v level fuel rest => sizeJ v
decreasing_by all_goals (simp [sizeJ, sizeItems, sizeFields]; try omega)

theorem parseItems_ser : ∀ (x : J) (xs : List J) (level pl fuel : Nat)
    (rest : List Char), 1 + sizeJ x + sizeItems xs ≤ fuel →
    parseItems fuel (serJ level x ++ (serArrRest level xs ++
      ('\n' :: (indentChars pl ++ (']' :: rest))))) = some (x :: xs, rest)
  | x, xs, level, pl, fuel, rest => fun hfuel => by
    obtain ⟨f, rfl⟩ : ∃ f, fuel = f + 1 := ⟨fuel - 1, by omega⟩
    rw [parseItems]
    cases xs with
    | nil =>
      rw [serArrRest, List.nil_append]
      rw [parseVal_ser x level (f + 1) _ (by omega)
        (numBoundary_of_head _ _ ⟨by decide, by decide, by decide, by decide⟩)]
      rw [Option.some_bind]
      simp only []
      rw [skipWs_cons_ws _ _ (by decide), skipWs_indent,
        skipWs_cons_not_ws _ _ (by decide)]
      rfl
    | cons x2 xs2 =>
      rw [serArrRest]
      simp only [List.cons_append, List.append_assoc]
      rw [parseVal_ser x level (f + 1) _ (by omega)
        (numBoundary_of_head _ _ ⟨by decide, by decide, by decide, by decide⟩)]
      rw [Option.some_bind]
      simp only []
      rw [skipWs_cons_not_ws _ _ (by decide)]
      simp only []
      rw [skipWs_cons_ws _ _ (by decide), skipWs_indent]
      obtain ⟨c2, cs2, hc2, hhead2⟩ := serJ_head level x2
      have hprops2 := jsonHead_props c2 hhead2
      rw [hc2, List.cons_append, skipWs_cons_not_ws _ _ hprops2.1,
        ← List.cons_append, ← hc2]
      rw [parseItems_ser x2 xs2 level pl f rest (by
        rw [sizeItems] at hfuel
        omega)]
      rfl
termination_by x xs level pl fuel rest => 1 + sizeJ x + sizeItems xs
decreasing_by all_goals (simp [sizeJ, sizeItems, sizeFields]; try omega)

theorem parseFields_ser : ∀ (k : String) (v : J) (flds : List (String × J))
    (level pl fuel : Nat) (rest : List Char),
    1 + sizeJ v + sizeFields flds ≤ fuel →
    parseFields fuel (serField level (k, v) ++ (serObjRest level flds ++
      ('\n' :: (indentChars pl ++ ('\x7d' :: rest))))) = some ((k, v) :: flds, rest)
  | k, v, flds, level, pl, fuel, rest => fun hfuel => by
    obtain ⟨f, rfl⟩ : ∃ f, fuel = f + 1 := ⟨fuel - 1, by omega⟩
    rw [serField]
    simp only [List.cons_append, List.append_assoc]
    rw [parseFields]
    rw [parseStrBody_escapeStr k.data _ _ (by
      simp only [List.length_append, List.length_cons]
      have := escapeStr_length_ge k.data
      omega)]
    rw [Option.some_bind]
    simp only []
    rw [skipWs_cons_not_ws _ _ (by decide)]
    simp only []
    rw [skipWs_cons_ws _ _ (by decide)]
    obtain ⟨c, cs, hc, hhead⟩ := serJ_head level v
    have hprops := jsonHead_props c hhead
    rw [hc, List.cons_append, skipWs_cons_not_ws _ _ hprops.1,
      ← List.cons_append, ← hc]
    cases flds with
    | nil =>
      rw [serObjRest, List.nil_append]
      rw [parseVal_ser v level (f + 1) _ (by omega)
        (numBoundary_of_head _ _ ⟨by decide, by decide, by decide, by decide⟩)]
      rw [Option.some_bind]
      simp only []
      rw [skipWs_cons_ws _ _ (by decide), skipWs_indent,
        skipWs_cons_not_ws _ _ (by decide)]
      cases k
      rfl
    | cons fld2 flds2 =>
      obtain ⟨k2, v2⟩ := fld2
      rw [serObjRest]
      simp only [List.cons_append, List.append_assoc]
      rw [parseVal_ser v level (f + 1) _ (by omega)
        (numBoundary_of_head _ _ ⟨by decide, by decide, by decide, by decide⟩)]
      rw [Option.some_bind]
      simp only []
      rw [skipWs_cons_not_ws _ _ (by decide)]
      simp only []
      rw [skipWs_cons_ws _ _ (by decide), skipWs_indent]
      have hsk : skipWs (serField level (k2, v2) ++ (serObjRest level flds2 ++
          '\n' :: (indentChars pl ++ '\x7d' :: rest))) =
          serField level (k2, v2) ++ (serObjRest level flds2 ++
          '\n' :: (indentChars pl ++ '\x7d' :: rest)) := by
        rw [serField, List.cons_append]
        exact skipWs_cons_not_ws _ _ (by decide)
      rw [hsk]
      rw [parseFields_ser k2 v2 flds2 level pl f rest (by
        have hfuel2 : 1 + sizeJ v + (1 + sizeJ v2 + sizeFields flds2) ≤ f + 1 := by
          simpa [sizeFields] using hfuel
        omega)]
      simp only [Option.map_some']
termination_by k v flds level pl fuel rest => 1 + sizeJ v + sizeFields flds
decreasing_by all_goals (simp [sizeJ, sizeItems, sizeFields]; try omega)

end

set_option maxHeartbeats 200000

/-! ### Serialized length dominates the parser fuel measure -/

mutual

theorem sizeJ_le_length : ∀ (level : Nat) (v : J), sizeJ v ≤ (serJ level v).length
  | level, J.null => by rw [serJ, sizeJ]; simp
  | level, J.bool true => by rw [serJ, sizeJ]; simp
  | level, J.bool false => by rw [serJ, sizeJ]; simp
  | level, J.num n => by
    rw [serJ, sizeJ]
    obtain ⟨c, cs, hc, _⟩ := intChars_head_strong n
    rw [hc]
    simp
  | level, J.str s => by
    rw [serJ, sizeJ]
    simp
  | level, J.arr [] => by rw [serJ, sizeJ, sizeItems]; simp
  | level, J.arr (x :: xs) => by
    rw [serJ, sizeJ, sizeItems]
    have h1 := sizeJ_le_length (level + 1) x
    have h2 := sizeItems_le_length (level + 1) xs
    simp only [List.length_cons, List.length_append]
    omega
  | level, J.obj [] => by rw [serJ, sizeJ, sizeFields]; simp
  | level, J.obj (f :: fs) => by
    rw [serJ, sizeJ, sizeFields]
    have h1 := sizeField_lt_length (level + 1) f
    have h2 := sizeFields_le_length (level + 1) fs
    simp only [List.length_cons, List.length_append]
    omega

theorem sizeField_lt_length : ∀ (level : Nat) (f : String × J),
    sizeJ f.2 + 1 ≤ (serField level f).length
  | level, (k, v) => by
    rw [serField]
    have := sizeJ_le_length level v
    simp only [List.length_cons, List.length_append]
    omega

theorem sizeItems_le_length : ∀ (level : Nat) (xs : List J),
    sizeItems xs ≤ (serArrRest level xs).length
  | level, [] => by rw [serArrRest, sizeItems]; simp
  | level, x :: xs => by
    rw [serArrRest, sizeItems]
    have h1 := sizeJ_le_length level x
    have h2 := sizeItems_le_length level xs
    simp only [List.length_cons, List.length_append]
    omega

theorem sizeFields_le_length : ∀ (level : Nat) (fs : List (String × J)),
    sizeFields fs ≤ (serObjRest level fs).length
  | level, [] => by rw [serObjRest, sizeFields]; simp
  | level, f :: fs => by
    rw [serObjRest, sizeFields]
    have h1 := sizeField_lt_length level f
    have h2 := sizeFields_le_length level fs
    simp only [List.length_cons, List.length_append]
    omega

end

/-- json.loads inverts json.dumps up to the key sorting the latter applies. -/
theorem loads_dumps (d : List (String × J)) :
    loads (dumps d ++ "\n") = Except.ok (sortJ (J.obj d)) := by
  have hdata : (dumps d ++ "\n").data = serJ 0 (sortJ (J.obj d)) ++ ['\n'] := by
    rw [dumps]
    rfl
  rw [loads, hdata]
  obtain ⟨c, cs, hc, hhead⟩ := serJ_head 0 (sortJ (J.obj d))
  have hprops := jsonHead_props c hhead
  rw [hc, List.cons_append, skipWs_cons_not_ws _ _ hprops.1, ← List.cons_append, ← hc]
  rw [parseVal_ser (sortJ (J.obj d)) 0 _ ['\n']
    (by
      have := sizeJ_le_length 0 (sortJ (J.obj d))
      simp only [List.length_append, List.length_cons, List.length_nil]
      omega)
    (numBoundary_of_head _ _ ⟨by decide, by decide, by decide, by decide⟩)]
  simp only []
  rw [if_pos (show skipWs ['\n'] = [] from rfl)]

/-! ### Sorting the keys preserves Python dict equality -/

theorem insertByKey_perm (f : String × J) :
    ∀ l : List (String × J), List.Perm (insertByKey f l) (f :: l)
  | [] => List.Perm.refl _
  | g :: rest => by
    rw [insertByKey]
    split
    · exact ((insertByKey_perm f rest).cons g).trans (List.Perm.swap f g rest)
    · exact List.Perm.refl _

theorem sortByKey_perm : ∀ l : List (String × J), List.Perm (sortByKey l) l
  | [] => List.Perm.refl _
  | f :: rest =>
    (insertByKey_perm f (sortByKey rest)).trans ((sortByKey_perm rest).cons f)

theorem lookupKV_eq_of_mem :
    ∀ (l : List (String × J)) (k : String) (v : J),
      (l.map Prod.fst).Nodup → (k, v) ∈ l → lookupKV l k = some v
  | [], _, _ => by intro _ hm; simp at hm
  | (k1, v1) :: rest, k, v => by
    intro hnod hm
    rw [List.map_cons, List.nodup_cons] at hnod
    rcases List.mem_cons.mp hm with h | h
    · rw [Prod.mk.injEq] at h
      rw [lookupKV, if_pos h.1.symm, h.2]
    · have hk : k1 ≠ k := by
        intro hc
        subst hc
        apply hnod.1
        rw [List.mem_map]
        exact ⟨(k1, v), h, rfl⟩
      rw [lookupKV, if_neg hk]
      exact lookupKV_eq_of_mem rest k v hnod.2 h

theorem lookupKV_isSome_of_mem_keys :
    ∀ (l : List (String × J)) (k : String),
      k ∈ l.map Prod.fst → (lookupKV l k).isSome = true
  | [], _ => by intro hm; simp at hm
  | (k1, v1) :: rest, k => by
    intro hm
    rw [lookupKV]
    by_cases hk : k1 = k
    · rw [if_pos hk]; rfl
    · rw [if_neg hk]
      apply lookupKV_isSome_of_mem_keys rest k
      rw [List.map_cons, List.mem_cons] at hm
      rcases hm with h | h
      · exact absurd h.symm hk
      · exact h

theorem sortJFields_map_fst :
    ∀ fs : List (String × J), (sortJFields fs).map Prod.fst = fs.map Prod.fst
  | [] => rfl
  | (k, v) :: rest => by
    rw [sortJFields, List.map_cons, List.map_cons, sortJFields_map_fst rest]

theorem mem_sortJFields :
    ∀ (fs : List (String × J)) (k : String) (w : J),
      (k, w) ∈ sortJFields fs ↔ ∃ v, (k, v) ∈ fs ∧ w = sortJ v := by
  intro fs
  induction fs with
  | nil => intro k w; simp [sortJFields]
  | cons f rest ih =>
    intro k w
    obtain ⟨k1, v1⟩ := f
    rw [sortJFields]
    constructor
    · intro hm
      rcases List.mem_cons.mp hm with h | h
      · rw [Prod.mk.injEq] at h
        exact ⟨v1, by rw [h.1]; exact List.mem_cons_self _ _, h.2⟩
      · obtain ⟨v, hv, hw⟩ := (ih k w).mp h
        exact ⟨v, List.mem_cons_of_mem _ hv, hw⟩
    · intro ⟨v, hv, hw⟩
      rcases List.mem_cons.mp hv with h | h
      · rw [Prod.mk.injEq] at h
        rw [h.1, hw, h.2]
        exact List.mem_cons_self _ _
      · exact List.mem_cons_of_mem _ ((ih k w).mpr ⟨v, h, hw⟩)

theorem jsonEqFields_of_forall :
    ∀ (l other : List (String × J)),
      (∀ f ∈ l, ∃ w, lookupKV other f.1 = some w ∧ jsonEq f.2 w = true) →
      jsonEqFields l other = true
  | [], _ => fun _ => rfl
  | (k, v) :: rest, other => fun h => by
    rw [jsonEqFields]
    obtain ⟨w, hw, heq⟩ := h (k, v) (List.mem_cons_self _ _)
    rw [hw]
    simp only [Bool.and_eq_true]
    exact ⟨heq, jsonEqFields_of_forall rest other
      (fun f hf => h f (List.mem_cons_of_mem _ hf))⟩

theorem JwfFields_mem :
    ∀ fs : List (String × J), JwfFields fs = true → ∀ f ∈ fs, Jwf f.2 = true
  | [], _ => by intro f hf; simp at hf
  | g :: rest, hwf => by
    intro f hf
    rw [JwfFields, Bool.and_eq_true] at hwf
    rcases List.mem_cons.mp hf with h | h
    · rw [h]; exact hwf.1
    · exact JwfFields_mem rest hwf.2 f h

mutual

theorem jsonEq_sortJ : ∀ v : J, Jwf v = true → jsonEq (sortJ v) v = true
  | J.null => fun _ => rfl
  | J.bool b => fun _ => by rw [sortJ, jsonEq]; simp
  | J.num n => fun _ => by rw [sortJ, jsonEq]; simp
  | J.str s => fun _ => by rw [sortJ, jsonEq]; simp
  | J.arr items => fun hwf => by
    rw [sortJ, jsonEq]
    rw [Jwf] at hwf
    exact jsonEqList_sortJ items hwf
  | J.obj fields => fun hwf => by
    rw [sortJ, jsonEq]
    rw [Jwf, Bool.and_eq_true] at hwf
    have hnodup : (fields.map Prod.fst).Nodup := by
      have := hwf.1
      simpa using this
    have hperm : List.Perm (sortByKey (sortJFields fields)) (sortJFields fields) :=
      sortByKey_perm _
    rw [Bool.and_eq_true]
    constructor
    · apply jsonEqFields_of_forall
      intro f hf
      have hf2 : f ∈ sortJFields fields := hperm.mem_iff.mp hf
      obtain ⟨k, w⟩ := f
      obtain ⟨v0, hv0, hw⟩ := (mem_sortJFields fields k w).mp hf2
      refine ⟨v0, lookupKV_eq_of_mem fields k v0 hnodup hv0, ?_⟩
      rw [hw]
      exact jsonEq_sortJ v0 (JwfFields_mem fields hwf.2 (k, v0) hv0)
    · rw [List.all_eq_true]
      intro g hg
      apply lookupKV_isSome_of_mem_keys
      have hkeys : List.Perm ((sortByKey (sortJFields fields)).map Prod.fst)
          (fields.map Prod.fst) := by
        have h1 := hperm.map Prod.fst
        rw [sortJFields_map_fst] at h1
        exact h1
      exact hkeys.mem_iff.mpr (List.mem_map_of_mem Prod.fst hg)
  termination_by v => sizeOf v
  decreasing_by
  · simp only [J.arr.sizeOf_spec]; omega
  · have h1 := List.sizeOf_lt_of_mem hv0
    simp only [Prod.mk.sizeOf_spec] at h1
    simp only [J.obj.sizeOf_spec]
    omega

theorem jsonEqList_sortJ : ∀ xs : List J, JwfList xs = true →
    jsonEqList (sortJList xs) xs = true
  | [] => fun _ => rfl
  | x :: xs => fun hwf => by
    rw [JwfList, Bool.and_eq_true] at hwf
    rw [sortJList, jsonEqList, Bool.and_eq_true]
    exact ⟨jsonEq_sortJ x hwf.1, jsonEqList_sortJ xs hwf.2⟩
  termination_by xs => sizeOf xs
  decreasing_by
  · simp only [List.cons.sizeOf_spec]; omega
  · simp only [List.cons.sizeOf_spec]; omega

end

/-- C7: for every path that can be written (no ancestor of the parent is a
regular file and the path itself is not a directory) and every mapping d
with JSON-representable values (well-formed: object keys distinct; floats
are outside the embedding), write_json followed by read_json returns a
value equal to d as Python == compares dicts (field order is irrelevant),
and the serialized file written by write_json ends with a trailing
newline. -/
theorem write_read_json_roundtrip (fs : FS) (p : AbsPath) (d : List (String × J))
    (hwf : Jwf (J.obj d) = true)
    (hanc : (ancestorChain (parentPath p)).all (fun q => !pathIsFile fs q) = true)
    (hnd : pathIsDir fs p = false) :
    ∃ fs1, write_json fs p d = Except.ok fs1 ∧
      (∃ v, read_json fs1 p = Except.ok v ∧ jsonEq v (J.obj d) = true) ∧
      ∃ content, lookupFS fs1 p = some (Node.file content) ∧
        content.data.getLast? = some '\n' := by
  have hdata : (dumps d ++ "\n").data = serJ 0 (sortJ (J.obj d)) ++ ['\n'] := by
    rw [dumps]; rfl
  have hnocr : '\r' ∉ (dumps d ++ "\n").data := by
    rw [hdata]
    intro hc
    rcases List.mem_append.mp hc with h | h
    · exact cr_not_serJ 0 _ h
    · exact absurd h (by decide)
  have hens : ensure_parent_dir fs p = Except.ok (((ancestorChain
      (parentPath p)).filter (fun q => !pathExists fs q)).map
        (fun q => (q, Node.dir)) ++ fs) := by
    simp only [ensure_parent_dir, hanc, if_true]
  have hlk := lookupFS_ensure_parent fs p _ hens
  have hnd1 : pathIsDir (((ancestorChain (parentPath p)).filter
      (fun q => !pathExists fs q)).map (fun q => (q, Node.dir)) ++ fs) p = false := by
    simp only [pathIsDir] at hnd ⊢
    rw [hlk]
    exact hnd
  refine ⟨(p, Node.file (String.mk (writeNewlineTranslate (dumps d ++ "\n").data))) ::
    (((ancestorChain (parentPath p)).filter (fun q => !pathExists fs q)).map
      (fun q => (q, Node.dir)) ++ fs), ?_, ?_, ?_⟩
  · rw [write_json, write_text, hens]
    simp only [Except.bind, hnd1, Bool.false_eq_true, if_false]
  · refine ⟨sortJ (J.obj d), ?_, jsonEq_sortJ _ hwf⟩
    rw [read_json]
    simp only [read_text, lookupFS, if_pos]
    rw [writeNewlineTranslate_id, univNewlines_id_of_no_cr _ hnocr]
    simp only [Except.bind]
    exact loads_dumps d
  · refine ⟨String.mk (writeNewlineTranslate (dumps d ++ "\n").data), ?_, ?_⟩
    · simp only [lookupFS, if_pos]
    · rw [writeNewlineTranslate_id]
      show (dumps d ++ "\n").data.getLast? = some '\n'
      rw [hdata, List.getLast?_concat]

/-- Witness for C7 on a concrete input: the mapping \x7b"b": 2, "a": [1]\x7d
written to f under the empty filesystem reads back as an equal mapping, and
the stored file ends with a newline. -/
theorem write_read_json_roundtrip_witness :
    (Jwf (J.obj [("b", J.num 2), ("a", J.arr [J.num 1])]) = true ∧
      (ancestorChain (parentPath ["f"])).all (fun q => !pathIsFile [] q) = true ∧
      pathIsDir [] ["f"] = false) ∧
    ∃ fs1, write_json [] ["f"] [("b", J.num 2), ("a", J.arr [J.num 1])] = Except.ok fs1 ∧
      (∃ v, read_json fs1 ["f"] = Except.ok v ∧
        jsonEq v (J.obj [("b", J.num 2), ("a", J.arr [J.num 1])]) = true) ∧
      ∃ content, lookupFS fs1 ["f"] = some (Node.file content) ∧
        content.data.getLast? = some '\n' :=
  ⟨⟨by decide, by decide, by decide⟩,
    write_read_json_roundtrip [] ["f"] [("b", J.num 2), ("a", J.arr [J.num 1])]
      (by decide) (by decide) (by decide)⟩

/-! ### CSV model (write_csv / read_csv)

write_csv writes through csv.DictWriter with the source's defaults
(delimiter ',', quotechar '"', doublequote, QUOTE_MINIMAL quoting,
lineterminator '\r\n', restval '', extrasaction 'raise') after
ensure_parent_dir; both write_csv and read_csv open the file with
newline='' so no newline translation applies.  read_csv parses with
csv.DictReader in its non-strict default dialect.  A row is a Python dict,
embedded as an association list with distinct keys; row values are strings
as the signatures of both functions state. -/

/-- QUOTE_MINIMAL: a field is quoted iff it contains the delimiter, the
quote character or one of the line-terminator characters. -/
def needsQuote (f : List Char) : Bool :=
  f.any (fun c => c = ',' || c = '"' || c = '\r' || c = '\n')

/-- doublequote=True: a literal quote inside a quoted field is doubled. -/
def escQuote : List Char → List Char
  | [] => []
  | c :: rest => if c = '"' then '"' :: '"' :: escQuote rest else c :: escQuote rest

/-- One written field: quoted when QUOTE_MINIMAL requires it; a lone empty
field (the only field of its record) is quoted so the record is not a blank
line. -/
def csvField (lone : Bool) (f : List Char) : List Char :=
  if needsQuote f then '"' :: (escQuote f ++ ['"'])
  else if lone && f.isEmpty then ['"', '"']
  else f

/-- Join fields with the delimiter. -/
def csvJoin : List (List Char) → List Char
  | [] => []
  | [f] => f
  | f :: rest => f ++ ',' :: csvJoin rest

/-- One written record: joined fields plus the '\r\n' terminator. -/
def csvRecord (fields : List (List Char)) : List Char :=
  match fields with
  | [] => ['\r', '\n']
  | [f] => csvField true f ++ ['\r', '\n']
  | f :: g :: fs => csvJoin ((f :: g :: fs).map (csvField false)) ++ ['\r', '\n']

/-- First binding of a key in a row (Python dict lookup). -/
def lookupStr : List (String × String) → String → Option String
  | [], _ => none
  | (k, v) :: rest, key => if k = key then some v else lookupStr rest key

/-- DictWriter._dict_to_list: the row's value for each field name in order,
restval '' for a missing key. -/
def rowValues (fieldnames : List String) (row : List (String × String)) :
    List String :=
  fieldnames.map (fun k => (lookupStr row k).getD "")

/-- The records written for the rows, stopping at the first row holding a
key outside the field names (extrasaction='raise' makes DictWriter raise
ValueError there); the flag reports whether that happened. -/
def csvBody (fieldnames : List String) :
    List (List (String × String)) → List Char × Bool
  | [] => ([], false)
  | row :: rest =>
    if row.all (fun kv => fieldnames.contains kv.1) then
      let tail := csvBody fieldnames rest
      (csvRecord ((rowValues fieldnames row).map String.data) ++ tail.1, tail.2)
    else ([], true)

/-- Model of easypath.write_csv: ensure the parent directories, then write
the header record followed by one record per row (the model does not track
the partially written file in the ValueError case, which no claim
concerns). -/
def write_csv (fs : FS) (p : AbsPath) (rows : List (List (String × String)))
    (fieldnames : List String) : Except String FS :=
  (ensure_parent_dir fs p).bind (fun fs1 =>
    if pathIsDir fs1 p then Except.error "IsADirectoryError"
    else
      let body := csvBody fieldnames rows
      if body.2 then Except.error "ValueError"
      else Except.ok ((p, Node.file (String.mk
        (csvRecord (fieldnames.map String.data) ++ body.1))) :: fs1))

/-- An unquoted field: everything up to the delimiter or a line-terminator
character (a quote inside an unquoted field is literal in the non-strict
dialect). -/
def parseUnquoted : List Char → List Char × List Char
  | [] => ([], [])
  | c :: rest =>
    if c = ',' || c = '\r' || c = '\n' then ([], c :: rest)
    else
      let t := parseUnquoted rest
      (c :: t.1, t.2)

/-- Inside a quoted field: a doubled quote is a literal quote, a single
quote closes the field; delimiters and newlines are literal; at end of
data the field simply ends (the non-strict reader does not error). -/
def parseQuoted : List Char → List Char × List Char
  | [] => ([], [])
  | c :: rest =>
    if c = '"' then
      match rest with
      | [] => ([], [])
      | c2 :: rest2 =>
        if c2 = '"' then
          let t := parseQuoted rest2
          ('"' :: t.1, t.2)
        else ([], c2 :: rest2)
    else
      let t := parseQuoted rest
      (c :: t.1, t.2)

/-- One field: a leading quote opens a quoted field; after its closing
quote any run-on characters up to the delimiter are appended (non-strict
dialect). -/
def csvParseField (cs : List Char) : List Char × List Char :=
  match cs with
  | [] => ([], [])
  | c :: rest =>
    if c = '"' then
      let q := parseQuoted rest
      let u := parseUnquoted q.2
      (q.1 ++ u.1, u.2)
    else parseUnquoted (c :: rest)

/-- The fields of one record, positioned at a field start; '\r\n', '\r',
'\n' or the end of data terminates the record. -/
def parseRecAux : Nat → List Char → List (List Char) × List Char
  | 0, cs => ([], cs)
  | fuel+1, cs =>
    let t := csvParseField cs
    match t.2 with
    | [] => ([t.1], [])
    | c :: rest =>
      if c = ',' then
        let u := parseRecAux fuel rest
        (t.1 :: u.1, u.2)
      else if c = '\r' then
        match rest with
        | [] => ([t.1], [])
        | c2 :: rest2 => if c2 = '\n' then ([t.1], rest2) else ([t.1], c2 :: rest2)
      else if c = '\n' then ([t.1], rest)
      else ([t.1], [])

/-- All records of the data: a line holding only its terminator is the
empty record, as csv.reader yields it. -/
def parseRecords : Nat → List Char → List (List (List Char))
  | 0, _ => []
  | fuel+1, cs =>
    match cs with
    | [] => []
    | c :: rest =>
      if c = '\r' then
        match rest with
        | [] => [[]]
        | c2 :: rest2 =>
          if c2 = '\n' then [] :: parseRecords fuel rest2
          else [] :: parseRecords fuel (c2 :: rest2)
      else if c = '\n' then [] :: parseRecords fuel rest
      else
        let t := parseRecAux ((c :: rest).length + 1) (c :: rest)
        t.1 :: parseRecords fuel t.2

/-- A value of a row dict produced by csv.DictReader: a parsed field, the
restval None for a field missing from a short record, or the list of
leftover strings a long record files under the restkey None. -/
inductive PyVal where
  | str (s : String)
  | pyNone
  | strList (l : List String)
deriving DecidableEq

/-- DictReader.__next__ on one non-blank record: zip the field names with
the record; fields beyond a short record get restval None; leftovers of a
long record go under the restkey None. -/
def dictReaderRow (fieldnames row : List String) :
    List (Option String × PyVal) :=
  let base := (fieldnames.zip row).map
    (fun kv => ((some kv.1 : Option String), PyVal.str kv.2))
  if row.length < fieldnames.length then
    base ++ (fieldnames.drop row.length).map
      (fun k => ((some k : Option String), PyVal.pyNone))
  else if fieldnames.length < row.length then
    base ++ [((none : Option String), PyVal.strList (row.drop fieldnames.length))]
  else base

/-- Model of easypath.read_csv: parse the stored bytes (newline='', so no
translation) with csv.DictReader: the first record is the header, blank
records are skipped, every other record becomes a row dict. -/
def read_csv (fs : FS) (p : AbsPath) :
    Except String (List (List (Option String × PyVal))) :=
  match lookupFS fs p with
  | some (Node.file data) =>
    match parseRecords (data.data.length + 1) data.data with
    | [] => Except.ok []
    | header :: rest =>
        Except.ok ((rest.filter (fun r => !r.isEmpty)).map
          (fun r => dictReaderRow (header.map String.mk) (r.map String.mk)))
  | some Node.dir => Except.error "IsADirectoryError"
  | none => Except.error "FileNotFoundError"

/-- First binding of a key in a read row (Python dict lookup; the restkey
is None, every other key a field name). -/
def lookupCell : List (Option String × PyVal) → Option String → Option PyVal
  | [], _ => none
  | (k, v) :: rest, key => if k = key then some v else lookupCell rest key

/-- Python == on two dicts embedded as association lists with distinct
keys: each binding of either is looked up in the other. -/
def pyDictEq (a b : List (Option String × PyVal)) : Bool :=
  a.all (fun kv => decide (lookupCell b kv.1 = some kv.2)) &&
  b.all (fun kv => decide (lookupCell a kv.1 = some kv.2))

/-! ### The reader recovers what the writer wrote -/

theorem parseUnquoted_clean :
    ∀ (f rest : List Char),
      f.all (fun c => !(c = ',' || c = '\r' || c = '\n')) = true →
      rest.head?.all (fun c => c = ',' || c = '\r' || c = '\n') = true →
      parseUnquoted (f ++ rest) = (f, rest)
  | [], rest => by
    intro _ hrest
    match rest with
    | [] => rfl
    | c :: r =>
      simp only [Option.all, List.head?] at hrest
      rw [List.nil_append, parseUnquoted, if_pos hrest]
  | c :: f, rest => by
    intro hf hrest
    rw [List.all_cons, Bool.and_eq_true] at hf
    have hc : (c = ',' || c = '\r' || c = '\n') = false := by
      cases h : (c = ',' || c = '\r' || c = '\n')
      · rfl
      · rw [h] at hf; exact absurd hf.1 (by decide)
    rw [List.cons_append, parseUnquoted, if_neg (by rw [hc]; decide),
      parseUnquoted_clean f rest hf.2 hrest]

theorem parseQuoted_escQuote :
    ∀ (f rest : List Char), rest.head? ≠ some '"' →
      parseQuoted (escQuote f ++ '"' :: rest) = (f, rest)
  | [], rest => by
    intro h
    rw [escQuote, List.nil_append, parseQuoted.eq_def]
    simp only []
    rw [if_true]
    match rest with
    | [] => rfl
    | c2 :: r2 =>
      have hc2 : ¬ c2 = '"' := fun hc => h (by rw [List.head?, hc])
      simp only [hc2, if_false]
  | c :: f, rest => by
    intro h
    rw [escQuote]
    by_cases hc : c = '"'
    · subst hc
      rw [if_pos rfl, List.cons_append, List.cons_append, parseQuoted.eq_def]
      simp only []
      rw [if_true, if_true, parseQuoted_escQuote f rest h]
    · rw [if_neg hc, List.cons_append, parseQuoted.eq_def]
      simp only []
      rw [if_neg hc, parseQuoted_escQuote f rest h]

theorem csvParseField_csvField (lone : Bool) (f : List Char) (c0 : Char) (r0 : List Char)
    (hc0 : (c0 = ',' || c0 = '\r' || c0 = '\n') = true) :
    csvParseField (csvField lone f ++ c0 :: r0) = (f, c0 :: r0) := by
  have hc0q : ¬ c0 = '"' := by
    intro h
    subst h
    exact absurd hc0 (by decide)
  have hhd : (c0 :: r0).head? ≠ some '"' := by
    simp only [List.head?]
    intro h
    exact hc0q (Option.some.inj h)
  have hpu : parseUnquoted (c0 :: r0) = ([], c0 :: r0) := by
    rw [parseUnquoted, if_pos hc0]
  rw [csvField]
  by_cases hq : needsQuote f = true
  · rw [if_pos hq, List.cons_append, List.append_assoc, List.singleton_append,
      csvParseField.eq_def]
    simp only []
    rw [if_true, parseQuoted_escQuote f (c0 :: r0) hhd, hpu]
    simp
  · rw [if_neg hq]
    have hanyf : ∀ c ∈ f, (c = ',' || c = '"' || c = '\r' || c = '\n') = false := by
      intro c hcmem
      cases h : (c = ',' || c = '"' || c = '\r' || c = '\n')
      · rfl
      · exfalso
        apply hq
        rw [needsQuote]
        exact List.any_eq_true.mpr ⟨c, hcmem, h⟩
    have hall : f.all (fun c => !(c = ',' || c = '\r' || c = '\n')) = true := by
      rw [List.all_eq_true]
      intro c hcmem
      have h4 := hanyf c hcmem
      rw [Bool.not_eq_true']
      cases h : (c = ',' || c = '\r' || c = '\n')
      · rfl
      · exfalso
        have h4a : ((¬c = ',' ∧ ¬c = '"') ∧ ¬c = '\r') ∧ ¬c = '\n' := by
          simpa using h4
        simp only [Bool.or_eq_true, decide_eq_true_eq] at h
        rcases h with (h | h) | h
        · exact h4a.1.1.1 h
        · exact h4a.1.2 h
        · exact h4a.2 h
    by_cases hle : (lone && f.isEmpty) = true
    · rw [if_pos hle]
      have hf : f = [] := by
        cases f with
        | nil => rfl
        | cons a as => simp at hle
      subst hf
      simp only [List.cons_append, List.nil_append]
      rw [csvParseField.eq_def]
      simp only []
      rw [if_true, parseQuoted.eq_def]
      simp only []
      rw [if_true]
      simp only [hc0q, if_false]
      rw [hpu]
      simp
    · rw [if_neg hle]
      cases f with
      | nil =>
        rw [List.nil_append, csvParseField.eq_def]
        simp only []
        rw [if_neg hc0q, hpu]
      | cons c fs =>
        have hcq : ¬ c = '"' := by
          intro h
          have := hanyf c (List.mem_cons_self _ _)
          rw [h] at this
          exact absurd this (by decide)
        rw [List.cons_append, csvParseField.eq_def]
        simp only []
        rw [if_neg hcq, ← List.cons_append,
          parseUnquoted_clean (c :: fs) (c0 :: r0) hall
            (by simp only [List.head?, Option.all]; exact hc0)]

theorem parseRecAux_csvJoin :
    ∀ (fields : List (List Char)) (rest : List Char) (fuel : Nat),
      fields ≠ [] → fields.length ≤ fuel →
      parseRecAux fuel (csvJoin (fields.map (csvField false)) ++ '\r' :: '\n' :: rest) =
        (fields, rest)
  | [], _, _ => fun h _ => absurd rfl h
  | [f], rest, fuel => by
    intro _ hfuel
    obtain ⟨fu, rfl⟩ : ∃ fu, fuel = fu + 1 := by
      have h := hfuel
      simp at h
      exact ⟨fuel - 1, by omega⟩
    rw [List.map_cons, List.map_nil, csvJoin, parseRecAux,
      csvParseField_csvField false f '\r' ('\n' :: rest) (by decide)]
    simp
  | f :: g :: fs, rest, fuel => by
    intro _ hfuel
    obtain ⟨fu, rfl⟩ : ∃ fu, fuel = fu + 1 := by
      have h := hfuel
      simp at h
      exact ⟨fuel - 1, by omega⟩
    rw [List.map_cons, List.map_cons, csvJoin, List.append_assoc, List.cons_append,
      parseRecAux, ← List.map_cons,
      csvParseField_csvField false f ',' _ (by decide)]
    have hrec := parseRecAux_csvJoin (g :: fs) rest fu (by simp)
      (by simpa using Nat.le_of_succ_le_succ hfuel)
    simp only []
    rw [if_true, hrec]
    simp

theorem parseRecAux_csvRecord (fields : List (List Char)) (rest : List Char)
    (fuel : Nat) (hne : fields ≠ []) (hfuel : fields.length ≤ fuel) :
    parseRecAux fuel (csvRecord fields ++ rest) = (fields, rest) := by
  match fields, hne with
  | [f], _ =>
    obtain ⟨fu, rfl⟩ : ∃ fu, fuel = fu + 1 := by
      have h := hfuel
      simp at h
      exact ⟨fuel - 1, by omega⟩
    rw [csvRecord]
    simp only [List.append_assoc, List.cons_append, List.nil_append]
    rw [parseRecAux, csvParseField_csvField true f '\r' ('\n' :: rest) (by decide)]
    simp
  | f :: g :: fs, _ =>
    rw [csvRecord]
    simp only [List.append_assoc, List.cons_append, List.nil_append]
    exact parseRecAux_csvJoin (f :: g :: fs) rest fuel (by simp) hfuel

theorem needsQuote_false_mem (f : List Char) (hq : ¬ needsQuote f = true) :
    ∀ c ∈ f, (c = ',' || c = '"' || c = '\r' || c = '\n') = false := by
  intro c hcmem
  cases h : (c = ',' || c = '"' || c = '\r' || c = '\n')
  · rfl
  · exfalso
    apply hq
    rw [needsQuote]
    exact List.any_eq_true.mpr ⟨c, hcmem, h⟩

theorem csvField_head_ne (lone : Bool) (f : List Char) (c : Char) (cs : List Char)
    (h : csvField lone f = c :: cs) : ¬ c = '\r' ∧ ¬ c = '\n' := by
  rw [csvField] at h
  by_cases hq : needsQuote f = true
  · rw [if_pos hq, List.cons.injEq] at h
    rw [← h.1]
    exact ⟨by decide, by decide⟩
  · rw [if_neg hq] at h
    by_cases hle : (lone && f.isEmpty) = true
    · rw [if_pos hle, List.cons.injEq] at h
      rw [← h.1]
      exact ⟨by decide, by decide⟩
    · rw [if_neg hle] at h
      have hmem : c ∈ f := by rw [h]; exact List.mem_cons_self _ _
      have h4 := needsQuote_false_mem f hq c hmem
      have h4a : ((¬c = ',' ∧ ¬c = '"') ∧ ¬c = '\r') ∧ ¬c = '\n' := by
        simpa using h4
      exact ⟨h4a.1.2, h4a.2⟩

theorem csvField_true_ne_nil (f : List Char) : csvField true f ≠ [] := by
  rw [csvField]
  by_cases hq : needsQuote f = true
  · rw [if_pos hq]; simp
  · rw [if_neg hq]
    cases f with
    | nil => simp
    | cons a as => simp

theorem csvRecord_head (fields : List (List Char)) (hne : fields ≠ []) :
    ∃ c cs, csvRecord fields = c :: cs ∧ ¬ c = '\r' ∧ ¬ c = '\n' := by
  match fields, hne with
  | [f], _ =>
    cases hcf : csvField true f with
    | nil => exact absurd hcf (csvField_true_ne_nil f)
    | cons c cs =>
      refine ⟨c, cs ++ ['\r', '\n'], ?_, csvField_head_ne true f c cs hcf⟩
      rw [csvRecord, hcf, List.cons_append]
  | f :: g :: fs, _ =>
    rw [csvRecord, List.map_cons, List.map_cons, csvJoin]
    case x_1 => simp
    cases hcf : csvField false f with
    | nil =>
      simp only [List.nil_append, List.cons_append]
      exact ⟨',', _, rfl, by decide, by decide⟩
    | cons c cs =>
      simp only [List.cons_append]
      exact ⟨c, _, rfl, csvField_head_ne false f c cs hcf⟩

theorem csvJoin_length :
    ∀ (l : List (List Char)), l ≠ [] → l.length ≤ (csvJoin l).length + 1
  | [x], _ => by simp [csvJoin]
  | x :: y :: ys, _ => by
    rw [csvJoin]
    case x_1 => simp
    have ih := csvJoin_length (y :: ys) (by simp)
    simp only [List.length_cons, List.length_append] at ih ⊢
    omega

theorem fields_le_csvRecord_length (fields : List (List Char)) :
    fields.length ≤ (csvRecord fields).length := by
  match fields with
  | [] => simp [csvRecord]
  | [f] => simp [csvRecord]
  | f :: g :: fs =>
    rw [csvRecord]
    have h := csvJoin_length ((f :: g :: fs).map (csvField false)) (by simp)
    simp only [List.length_map, List.length_cons, List.length_append] at h ⊢
    omega

theorem parseRecords_cons (fields : List (List Char)) (more : List Char) (fuel : Nat)
    (hne : fields ≠ []) :
    parseRecords (fuel + 1) (csvRecord fields ++ more) =
      fields :: parseRecords fuel more := by
  obtain ⟨c, cs, hrec, hcr, hlf⟩ := csvRecord_head fields hne
  have hbound : fields.length ≤ (csvRecord fields ++ more).length + 1 := by
    have h1 := fields_le_csvRecord_length fields
    rw [List.length_append]
    omega
  rw [hrec, List.cons_append, parseRecords.eq_def]
  simp only []
  rw [if_neg hcr, if_neg hlf, ← List.cons_append, ← hrec,
    parseRecAux_csvRecord fields more _ hne hbound]

theorem parseRecords_flat :
    ∀ (recs : List (List (List Char))) (fuel : Nat),
      (∀ r ∈ recs, r ≠ []) → recs.length < fuel →
      parseRecords fuel ((recs.map csvRecord).flatten) = recs
  | [], fuel => by
    intro _ hfuel
    obtain ⟨fu, rfl⟩ : ∃ fu, fuel = fu + 1 := ⟨fuel - 1, by omega⟩
    rw [List.map_nil, List.flatten_nil, parseRecords.eq_def]
  | r :: rs, fuel => by
    intro hall hfuel
    obtain ⟨fu, rfl⟩ : ∃ fu, fuel = fu + 1 := ⟨fuel - 1, by omega⟩
    rw [List.map_cons, List.flatten_cons,
      parseRecords_cons r _ fu (hall r (List.mem_cons_self _ _)),
      parseRecords_flat rs fu (fun x hx => hall x (List.mem_cons_of_mem _ hx))
        (by simpa using hfuel)]

theorem csvBody_ok (fieldnames : List String) :
    ∀ (rows : List (List (String × String))),
      (∀ row ∈ rows, row.all (fun kv => fieldnames.contains kv.1) = true) →
      csvBody fieldnames rows =
        ((rows.map (fun row =>
          csvRecord ((rowValues fieldnames row).map String.data))).flatten, false)
  | [] => fun _ => rfl
  | row :: rest => fun h => by
    rw [csvBody, if_pos (h row (List.mem_cons_self _ _)),
      csvBody_ok fieldnames rest (fun r hr => h r (List.mem_cons_of_mem _ hr)),
      List.map_cons, List.flatten_cons]

theorem map_mk_map_data (l : List String) : (l.map String.data).map String.mk = l := by
  rw [List.map_map]
  show l.map (fun s => String.mk s.data) = l
  have h : (fun s : String => String.mk s.data) = fun s => s := rfl
  rw [h]
  exact List.map_id' l

theorem zip_map_self (g : String → String) :
    ∀ (l : List String), l.zip (l.map g) = l.map (fun k => (k, g k))
  | [] => rfl
  | k :: ks => by
    rw [List.map_cons, List.zip_cons_cons, zip_map_self g ks, List.map_cons]

theorem dictReaderRow_values (fieldnames : List String) (row : List (String × String)) :
    dictReaderRow fieldnames (rowValues fieldnames row) =
      fieldnames.map (fun k => ((some k : Option String),
        PyVal.str ((lookupStr row k).getD ""))) := by
  have hlen : (rowValues fieldnames row).length = fieldnames.length := by
    rw [rowValues, List.length_map]
  rw [dictReaderRow]
  rw [if_neg (by rw [hlen]; omega), if_neg (by rw [hlen]; omega)]
  rw [rowValues, zip_map_self, List.map_map]
  rfl

theorem lookupCell_emb (row : List (String × String)) (k : String) :
    lookupCell (row.map (fun kv => ((some kv.1 : Option String), PyVal.str kv.2)))
        (some k) = (lookupStr row k).map PyVal.str := by
  induction row with
  | nil => rfl
  | cons kv rest ih =>
    obtain ⟨k1, v1⟩ := kv
    rw [List.map_cons, lookupCell, lookupStr]
    by_cases h : k1 = k
    · subst h
      rw [if_pos rfl, if_pos rfl, Option.map_some']
    · rw [if_neg (fun hc => h (Option.some.inj hc)), if_neg h, ih]

theorem lookupCell_fieldmap (g : String → PyVal) :
    ∀ (fieldnames : List String) (k : String), k ∈ fieldnames →
      lookupCell (fieldnames.map (fun k2 => ((some k2 : Option String), g k2)))
        (some k) = some (g k)
  | [], _ => by intro h; simp at h
  | k1 :: ks, k => by
    intro hmem
    rw [List.map_cons, lookupCell]
    by_cases h : k1 = k
    · subst h
      rw [if_pos rfl]
    · rw [if_neg (fun hc => h (Option.some.inj hc))]
      refine lookupCell_fieldmap g ks k ?_
      rcases List.mem_cons.mp hmem with h2 | h2
      · exact absurd h2.symm h
      · exact h2

theorem lookupStr_eq_of_mem :
    ∀ (l : List (String × String)) (k v : String),
      (l.map Prod.fst).Nodup → (k, v) ∈ l → lookupStr l k = some v
  | [], _, _ => by intro _ hm; simp at hm
  | (k1, v1) :: rest, k, v => by
    intro hnod hm
    rw [List.map_cons, List.nodup_cons] at hnod
    rcases List.mem_cons.mp hm with h | h
    · rw [Prod.mk.injEq] at h
      rw [lookupStr, if_pos h.1.symm, h.2]
    · have hk : k1 ≠ k := by
        intro hc
        subst hc
        apply hnod.1
        rw [List.mem_map]
        exact ⟨(k1, v), h, rfl⟩
      rw [lookupStr, if_neg hk]
      exact lookupStr_eq_of_mem rest k v hnod.2 h

theorem pyDictEq_of_row (fieldnames : List String) (row : List (String × String))
    (hnodupR : (row.map Prod.fst).Nodup)
    (hkeys : ∀ kv ∈ row, kv.1 ∈ fieldnames)
    (hcov : ∀ k ∈ fieldnames, (lookupStr row k).isSome = true) :
    pyDictEq
      (fieldnames.map (fun k => ((some k : Option String),
        PyVal.str ((lookupStr row k).getD ""))))
      (row.map (fun kv => ((some kv.1 : Option String), PyVal.str kv.2))) = true := by
  rw [pyDictEq, Bool.and_eq_true]
  constructor
  · rw [List.all_eq_true]
    intro x hx
    rw [List.mem_map] at hx
    obtain ⟨k, hk, rfl⟩ := hx
    rw [decide_eq_true_eq, lookupCell_emb]
    obtain ⟨v, hv⟩ := Option.isSome_iff_exists.mp (hcov k hk)
    rw [hv]
    rfl
  · rw [List.all_eq_true]
    intro x hx
    rw [List.mem_map] at hx
    obtain ⟨kv, hkv, rfl⟩ := hx
    rw [decide_eq_true_eq,
      lookupCell_fieldmap (fun k => PyVal.str ((lookupStr row k).getD ""))
        fieldnames kv.1 (hkeys kv hkv)]
    have hl : lookupStr row kv.1 = some kv.2 :=
      lookupStr_eq_of_mem row kv.1 kv.2 hnodupR (by rwa [Prod.mk.eta])
    rw [hl]
    rfl

theorem filter_nonempty_eq_self (l : List (List (List Char)))
    (h : ∀ x ∈ l, x ≠ []) : l.filter (fun r => !r.isEmpty) = l := by
  rw [List.filter_eq_self]
  intro a ha
  cases hx : a with
  | nil => exact absurd hx (h a ha)
  | cons y ys => simp

theorem csvRecord_length_ge (fields : List (List Char)) :
    2 ≤ (csvRecord fields).length := by
  match fields with
  | [] => simp [csvRecord]
  | [f] => simp [csvRecord]
  | f :: g :: fs => simp [csvRecord]

theorem recs_length_lt :
    ∀ (recs : List (List (List Char))),
      recs.length < ((recs.map csvRecord).flatten).length + 1
  | [] => by simp
  | r :: rs => by
    rw [List.map_cons, List.flatten_cons]
    have ih := recs_length_lt rs
    have h2 := csvRecord_length_ge r
    simp only [List.length_cons, List.length_append]
    omega

theorem forall2_map_self {α β : Type} (F : α → β) (rel : β → α → Prop) :
    ∀ l : List α, (∀ a ∈ l, rel (F a) a) → List.Forall₂ rel (l.map F) l
  | [] => fun _ => List.Forall₂.nil
  | a :: as => fun h => List.Forall₂.cons (h a (List.mem_cons_self _ _))
      (forall2_map_self F rel as (fun x hx => h x (List.mem_cons_of_mem _ hx)))

theorem parseRecords_written (fieldnames : List String)
    (rows : List (List (String × String))) (hfne : fieldnames ≠ []) :
    parseRecords ((csvRecord (fieldnames.map String.data) ++
        (rows.map (fun row => csvRecord ((rowValues fieldnames row).map
          String.data))).flatten).length + 1)
      (csvRecord (fieldnames.map String.data) ++
        (rows.map (fun row => csvRecord ((rowValues fieldnames row).map
          String.data))).flatten) =
      (fieldnames.map String.data) ::
        rows.map (fun row => (rowValues fieldnames row).map String.data) := by
  have hform : csvRecord (fieldnames.map String.data) ++
      (rows.map (fun row => csvRecord ((rowValues fieldnames row).map
        String.data))).flatten =
      ((((fieldnames.map String.data) ::
        rows.map (fun row => (rowValues fieldnames row).map String.data)).map
          csvRecord).flatten) := by
    rw [List.map_cons, List.flatten_cons, List.map_map]
    rfl
  rw [hform]
  apply parseRecords_flat
  · intro r hr
    rcases List.mem_cons.mp hr with h | h
    · rw [h]
      simp [hfne]
    · rw [List.mem_map] at h
      obtain ⟨row, _, hrow⟩ := h
      rw [← hrow]
      simp [rowValues, hfne]
  · exact recs_length_lt _

/-- C8 (amended): for every path that can be written, every nonempty
duplicate-free field-name list and every list of rows each of which binds
exactly the field names (distinct keys, no key outside the field names,
every field name bound), write_csv followed by read_csv returns the rows
back as string-valued mappings compared as Python dicts, and the written
file begins with a header record holding exactly the field names.  A row
that does not bind every field name does not round-trip: see the
counterexample. -/
theorem write_read_csv_roundtrip (fs : FS) (p : AbsPath)
    (rows : List (List (String × String))) (fieldnames : List String)
    (hfne : fieldnames ≠ [])
    (hnodupF : fieldnames.Nodup)
    (hrows : ∀ row ∈ rows, (row.map Prod.fst).Nodup ∧
      (∀ kv ∈ row, kv.1 ∈ fieldnames) ∧
      (∀ k ∈ fieldnames, (lookupStr row k).isSome = true))
    (hanc : (ancestorChain (parentPath p)).all (fun q => !pathIsFile fs q) = true)
    (hnd : pathIsDir fs p = false) :
    ∃ fs1, write_csv fs p rows fieldnames = Except.ok fs1 ∧
      (∃ out, read_csv fs1 p = Except.ok out ∧
        List.Forall₂ (fun o r => pyDictEq o
          (r.map (fun kv => ((some kv.1 : Option String), PyVal.str kv.2))) = true)
          out rows) ∧
      ∃ content, lookupFS fs1 p = some (Node.file content) ∧
        (parseRecords (content.data.length + 1) content.data).head? =
          some (fieldnames.map String.data) := by
  have hcheck : ∀ row ∈ rows, row.all (fun kv => fieldnames.contains kv.1) = true := by
    intro row hrow
    rw [List.all_eq_true]
    intro kv hkv
    exact List.elem_iff.mpr ((hrows row hrow).2.1 kv hkv)
  have hens : ensure_parent_dir fs p = Except.ok (((ancestorChain
      (parentPath p)).filter (fun q => !pathExists fs q)).map
        (fun q => (q, Node.dir)) ++ fs) := by
    simp only [ensure_parent_dir, hanc, if_true]
  have hnd1 : pathIsDir (((ancestorChain (parentPath p)).filter
      (fun q => !pathExists fs q)).map (fun q => (q, Node.dir)) ++ fs) p = false := by
    have hlk := lookupFS_ensure_parent fs p _ hens
    simp only [pathIsDir] at hnd ⊢
    rw [hlk]
    exact hnd
  have hrecs := parseRecords_written fieldnames rows hfne
  have hrowsne : ∀ x ∈ rows.map (fun row => (rowValues fieldnames row).map
      String.data), x ≠ [] := by
    intro x hx
    rw [List.mem_map] at hx
    obtain ⟨row, _, hrow⟩ := hx
    rw [← hrow]
    simp [rowValues, hfne]
  refine ⟨(p, Node.file (String.mk (csvRecord (fieldnames.map String.data) ++
      (rows.map (fun row => csvRecord ((rowValues fieldnames row).map
        String.data))).flatten))) ::
    (((ancestorChain (parentPath p)).filter (fun q => !pathExists fs q)).map
      (fun q => (q, Node.dir)) ++ fs), ?_, ?_, ?_⟩
  · rw [write_csv, hens]
    simp only [Except.bind, hnd1, Bool.false_eq_true, if_false]
    rw [csvBody_ok fieldnames rows hcheck]
    rfl
  · refine ⟨rows.map (fun row => fieldnames.map (fun k => ((some k : Option String),
        PyVal.str ((lookupStr row k).getD "")))), ?_, ?_⟩
    · rw [read_csv]
      simp only [lookupFS, if_pos]
      rw [hrecs]
      simp only []
      rw [filter_nonempty_eq_self _ hrowsne, map_mk_map_data fieldnames,
        List.map_map]
      have hfun : ((fun r => dictReaderRow fieldnames (r.map String.mk)) ∘
          (fun row => (rowValues fieldnames row).map String.data)) =
          (fun row => fieldnames.map (fun k => ((some k : Option String),
            PyVal.str ((lookupStr row k).getD "")))) := by
        funext row
        show dictReaderRow fieldnames
          (((rowValues fieldnames row).map String.data).map String.mk) = _
        rw [map_mk_map_data]
        exact dictReaderRow_values fieldnames row
      rw [hfun]
    · apply forall2_map_self
      intro row hrow
      obtain ⟨h1, h2, h3⟩ := hrows row hrow
      exact pyDictEq_of_row fieldnames row h1 h2 h3
  · refine ⟨String.mk (csvRecord (fieldnames.map String.data) ++
      (rows.map (fun row => csvRecord ((rowValues fieldnames row).map
        String.data))).flatten), ?_, ?_⟩
    · simp only [lookupFS, if_pos]
    · rw [show ((String.mk (csvRecord (fieldnames.map String.data) ++
          (rows.map (fun row => csvRecord ((rowValues fieldnames row).map
            String.data))).flatten)).data) = csvRecord (fieldnames.map String.data) ++
          (rows.map (fun row => csvRecord ((rowValues fieldnames row).map
            String.data))).flatten from rfl, hrecs]
      rfl

/-- C8 counterexample: the claim promises the round trip for every
field-name list covering the rows' columns, but a row that does not bind a
field name does not come back: the single empty row written under field
names ["a"] is stored as the restval '' and reads back as the mapping
binding "a" to "", which is not the empty mapping. -/
theorem write_read_csv_missing_field :
    write_csv [] ["f"] [[]] ["a"] =
      Except.ok [(["f"], Node.file "a\r\n\x22\x22\r\n")] ∧
    read_csv [(["f"], Node.file "a\r\n\x22\x22\r\n")] ["f"] =
      Except.ok [[((some "a" : Option String), PyVal.str "")]] ∧
    ([[((some "a" : Option String), PyVal.str "")]] :
        List (List (Option String × PyVal))) ≠ [[]] := by
  refine ⟨rfl, rfl, by decide⟩

/-- Witness for C8 on a concrete input: the single row binding "a" to "1"
written under field names ["a"] to f in the empty filesystem reads back as
an equal list of mappings, and the file starts with the header record. -/
theorem write_read_csv_roundtrip_witness :
    ((["a"] : List String) ≠ [] ∧ (["a"] : List String).Nodup ∧
      (∀ row ∈ ([[("a", "1")]] : List (List (String × String))),
        (row.map Prod.fst).Nodup ∧
        (∀ kv ∈ row, kv.1 ∈ (["a"] : List String)) ∧
        (∀ k ∈ (["a"] : List String), (lookupStr row k).isSome = true)) ∧
      (ancestorChain (parentPath ["f"])).all (fun q => !pathIsFile [] q) = true ∧
      pathIsDir [] ["f"] = false) ∧
    (∃ fs1, write_csv [] ["f"] [[("a", "1")]] ["a"] = Except.ok fs1 ∧
      (∃ out, read_csv fs1 ["f"] = Except.ok out ∧
        List.Forall₂ (fun o r => pyDictEq o
          (r.map (fun kv => ((some kv.1 : Option String), PyVal.str kv.2))) = true)
          out [[("a", "1")]]) ∧
      ∃ content, lookupFS fs1 ["f"] = some (Node.file content) ∧
        (parseRecords (content.data.length + 1) content.data).head? =
          some ((["a"] : List String).map String.data)) :=
  ⟨⟨by decide, by decide, by decide, by decide, by decide⟩,
    write_read_csv_roundtrip [] ["f"] [[("a", "1")]] ["a"] (by decide) (by decide)
      (by decide) (by decide) (by decide)⟩

end EasyPath
